import Mathlib

/-!
# Verification of the CoChat plan ↔ markdown codec

Shallow embedding of the plan serializer (`planToMarkdown`), parser
(`markdownToPlan`) and marker predicate (`isPlanMessage`) from the
repository's plan-format module, together with proofs of the spec's
claims about them.

Strings are modelled as `List Char` (`Str`).  JavaScript string
primitives (`split`, `includes`, `startsWith`, `trim`, `repeat`,
`replace`, `indexOf`, `findIndex`, `slice`) are given faithful
list-level definitions.  The single regular expression of the module
(`ITEM_RE`) is compiled to an explicit matcher that implements the
backtracking search order of a JS regex engine (greedy `\s+` runs,
lazy `(.+?)`, optional groups preferred present); every greedy
whitespace run in the pattern is followed by a non-whitespace literal,
so those parts are deterministic, and the remaining nondeterminism
(the split between the lazy content group and the optional trailing
annotation groups) is implemented by explicit search in
`matchTailFrom` / `findContentFrom`.

`crypto.randomUUID()` is nondeterministic; it is modelled by an
explicit identifier supply `freshId : Nat → Str` consumed in document
order, and `new Date().toISOString()` by an explicit `now : Str`
parameter.  Mutable-array aliasing in `buildTree` (each stack frame's
`items` array *is* the `children` array of the item that owns it) is
rendered functionally: frames accumulate their items and the
accumulated list is written into the owning item when the frame is
popped (`popGEGo`) or when the algorithm finishes (`closeAllGo`).
-/

namespace CochatPlan

abbrev Str := List Char

/-- Convert a Lean string literal to the `List Char` string model. -/
def str (s : String) : Str := s.toList

/-- The JavaScript `\s` / `trim` whitespace set (WhiteSpace ∪ LineTerminator). -/
def isSpaceJS (c : Char) : Bool :=
  c = ' ' || c = '\t' || c = '\n' || c = '\r' || c = '\x0b' || c = '\x0c' ||
  c = '\u00A0' || c = '\u1680' ||
  ('\u2000' ≤ c && c ≤ '\u200A') ||
  c = '\u2028' || c = '\u2029' || c = '\u202F' || c = '\u205F' ||
  c = '\u3000' || c = '\uFEFF'

/-- Characters matched by the JS regex `.` (anything except a line terminator). -/
def isDotChar (c : Char) : Bool :=
  !(c = '\n' || c = '\r' || c = '\u2028' || c = '\u2029')

/-- JS `s.includes(sub)`: substring containment. -/
def jsIncludes (s sub : Str) : Bool :=
  sub.isPrefixOf s ||
    (match s with
     | [] => false
     | _ :: t => jsIncludes t sub)

/-- JS `s.split(sep)` for a one-character separator; never returns `[]`. -/
def splitOnChar (c : Char) : Str → List Str
  | [] => [[]]
  | x :: xs =>
    if x = c then [] :: splitOnChar c xs
    else
      match splitOnChar c xs with
      | [] => [[x]]
      | l :: ls => (x :: l) :: ls

/-- JS `parts.join(sep)` for a one-character separator. -/
def joinWith (c : Char) : List Str → Str
  | [] => []
  | [l] => l
  | l :: l2 :: ls => l ++ c :: joinWith c (l2 :: ls)

/-- JS `s.trim()`. -/
def trimStr (s : Str) : Str :=
  ((s.dropWhile isSpaceJS).reverse.dropWhile isSpaceJS).reverse

/-- JS `s.repeat(n)`. -/
def jsRepeat (s : Str) : Nat → Str
  | 0 => []
  | n + 1 => s ++ jsRepeat s n

/-- JS `s.replace(pat, repl)` with a string pattern: replaces the first
occurrence only (and an empty pattern matches at position 0). -/
def replaceFirst (s pat repl : Str) : Str :=
  if pat.isPrefixOf s then repl ++ s.drop pat.length
  else
    match s with
    | [] => s
    | x :: xs => x :: replaceFirst xs pat repl

/-- JS `arr.indexOf(x)`: index of the first occurrence, `-1` if absent. -/
def jsIndexOf (l : List Str) (x : Str) : Int :=
  match l.findIdx? (fun y => y = x) with
  | some i => (i : Int)
  | none => -1

/-- JS `arr.findIndex(p)`: index of the first element satisfying `p`, `-1` if absent. -/
def jsFindIndex (p : Str → Bool) (l : List Str) : Int :=
  match l.findIdx? p with
  | some i => (i : Int)
  | none => -1

-- ---------------------------------------------------------------------------
-- Plan data types
-- ---------------------------------------------------------------------------

inductive PlanItemStatus where
  | pending | in_progress | completed | cancelled
deriving DecidableEq, Repr

inductive PlanItemPriority where
  | high | medium | low
deriving DecidableEq, Repr

/-- `PlanItem`: `id`, `content`, `status`, `priority`, optional `children`.
The optional `children` field (`children?: PlanItem[]`) makes this a nested
inductive type. -/
inductive PlanItem where
  | mk (id : Str) (content : Str) (status : PlanItemStatus)
       (priority : PlanItemPriority) (children : Option (List PlanItem))

def PlanItem.id : PlanItem → Str
  | .mk i _ _ _ _ => i

def PlanItem.content : PlanItem → Str
  | .mk _ c _ _ _ => c

def PlanItem.status : PlanItem → PlanItemStatus
  | .mk _ _ s _ _ => s

def PlanItem.priority : PlanItem → PlanItemPriority
  | .mk _ _ _ p _ => p

def PlanItem.children : PlanItem → Option (List PlanItem)
  | .mk _ _ _ _ ch => ch

/-- Replace the `children` field of an item. -/
def PlanItem.withKids : PlanItem → Option (List PlanItem) → PlanItem
  | .mk i c s p _, ch => .mk i c s p ch

structure PlanMetadata where
  source : Str
  sessionId : Option Str
  createdAt : Str
  updatedAt : Str

structure Plan where
  title : Str
  description : Option Str
  items : List PlanItem
  metadata : PlanMetadata

-- ---------------------------------------------------------------------------
-- Metadata marker
-- ---------------------------------------------------------------------------

def PLAN_MARKER : Str := str "<!-- cochat-plan-mcp -->"

-- ---------------------------------------------------------------------------
-- Serialize: Plan -> Markdown
-- ---------------------------------------------------------------------------

def priorityLabel : PlanItemPriority → Str
  | .high => str "**[HIGH]**"
  | .medium => str "**[MED]**"
  | .low => str "**[LOW]**"

def statusCheckbox (s : PlanItemStatus) : Str :=
  if s = .completed then str "[x]" else str "[ ]"

/-- The single formatted line of one item (the `line` local of `formatItem`):
`"  ".repeat(indent) + "- "` + checkbox + `" "` + priority label + `" "` +
content, plus the status annotation suffix. -/
def itemLine (item : PlanItem) (indent : Nat) : Str :=
  let pre := jsRepeat (str "  ") indent ++ str "- "
  let checkbox := statusCheckbox item.status
  let priority := priorityLabel item.priority
  pre ++ checkbox ++ [' '] ++ priority ++ [' '] ++ item.content ++
    (if item.status = .in_progress then str " *(in progress)*"
     else if item.status = .cancelled then str " ~~cancelled~~"
     else [])

mutual

/-- `formatItem`: the item's own line, then the recursively formatted
children joined by newlines (appended only when non-empty, matching the
JS truthiness test on the joined string). -/
def formatItem : PlanItem → Nat → Str
  | .mk i c s p ch, indent =>
    let line := itemLine (.mk i c s p ch) indent
    let childLines := joinWith '\n' (formatChildList ch (indent + 1))
    if childLines = [] then line else line ++ '\n' :: childLines

/-- `(item.children ?? []).map(child => formatItem(child, indent + 1))`. -/
def formatChildList : Option (List PlanItem) → Nat → List Str
  | none, _ => []
  | some cs, indent => formatItems cs indent

def formatItems : List PlanItem → Nat → List Str
  | [], _ => []
  | c :: cs, indent => formatItem c indent :: formatItems cs indent

end

def planFooter : Str :=
  str "*Reply below with feedback. The plan author can pull your comments back into their local session.*"

/-- The `lines` array pushed by `planToMarkdown` before the final `join("\n")`.
Note that each `formatItem` result is a single entry that may itself contain
newlines. -/
def planLines (plan : Plan) : List Str :=
  [PLAN_MARKER,
   str "# Plan: " ++ plan.title,
   [],
   str "> Shared from " ++ plan.metadata.source ++ str " | Updated: " ++ plan.metadata.updatedAt,
   []] ++
  (match plan.description with
   | some d => if d = [] then [] else [str "## Overview", [], d, []]
   | none => []) ++
  [str "## Tasks", []] ++
  formatItems plan.items 0 ++
  [[], str "---", planFooter]

def planToMarkdown (plan : Plan) : Str :=
  joinWith '\n' (planLines plan)

-- ---------------------------------------------------------------------------
-- Deserialize: Markdown -> Plan
-- ---------------------------------------------------------------------------

/-- The four capture groups of `ITEM_RE`:
`/^(\s*)- \[([ xX])\]\s+\*\*\[(HIGH|MED|LOW)\]\*\*\s+(.+?)(?:\s+\*\(in progress\)\*)?(?:\s+~~cancelled~~)?$/` -/
structure ItemMatch where
  ws : Str
  checkbox : Char
  priority : Str
  content : Str

def inProgressTok : Str := str "*(in progress)*"

def cancelledTok : Str := str "~~cancelled~~"

/-- Match `\s+` followed by the literal `lit` at the start of `t`, returning
what follows.  The whitespace run is the maximal one: `lit` starts with a
non-whitespace character, so a regex engine's backtracking cannot succeed
with a shorter run. -/
def stripWsLit (lit : Str) (t : Str) : Option Str :=
  let w := t.takeWhile isSpaceJS
  let r := t.dropWhile isSpaceJS
  if w ≠ [] ∧ lit.isPrefixOf r then some (r.drop lit.length) else none

/-- Does `t` fully match `(?:\s+\*\(in progress\)\*)?(?:\s+~~cancelled~~)?$`?
The four alternatives are: both groups absent, only the in-progress group,
both groups, only the cancelled group. -/
def annotTailOk (t : Str) : Bool :=
  (t = []) ||
  (match stripWsLit inProgressTok t with
   | some t2 =>
     (t2 = []) ||
     (match stripWsLit cancelledTok t2 with
      | some t3 => t3 = []
      | none => false)
   | none => false) ||
  (match stripWsLit cancelledTok t with
   | some t2 => t2 = []
   | none => false)

/-- The lazy group `(.+?)`: the smallest non-empty all-dot-character prefix
of `avail` whose remainder matches the optional annotation groups and `$`.
`acc` is the reversed prefix consumed so far. -/
def findContentFrom (acc : Str) : Str → Option Str
  | [] => none
  | c :: cs =>
    if !isDotChar c then none
    else if annotTailOk cs then some (acc.reverse ++ [c])
    else findContentFrom (c :: acc) cs

/-- The `\s+(.+?)⟨annotations⟩$` tail of `ITEM_RE`, applied to the text `r`
following `]**`.  The greedy `\s+` prefers the longest run, so `j` counts
down from the maximal whitespace run; for each `j` the lazy content group
is resolved by `findContentFrom`. -/
def matchTailFrom (r : Str) : Nat → Option Str
  | 0 => none
  | j + 1 =>
    match findContentFrom [] (r.drop (j + 1)) with
    | some c => some c
    | none => matchTailFrom r j

/-- The priority alternation `(HIGH|MED|LOW)` followed by the literal `]**`;
returns the captured keyword and the rest of the line. -/
def matchPriorityAt (r : Str) : Option (Str × Str) :=
  if (str "HIGH]**").isPrefixOf r then some (str "HIGH", r.drop 7)
  else if (str "MED]**").isPrefixOf r then some (str "MED", r.drop 6)
  else if (str "LOW]**").isPrefixOf r then some (str "LOW", r.drop 6)
  else none

/-- Stage of `ITEM_RE` after the priority keyword and `]**` have been
consumed: resolve the lazy content group against `r5` (the text after
`]**`), with the greedy `\s+` starting from the maximal run. -/
def matchAfterPr (ws : Str) (c : Char) (r4 : Str) : Option ItemMatch :=
  match matchPriorityAt r4 with
  | some (pr, r5) =>
    match matchTailFrom r5 ((r5.takeWhile isSpaceJS).length) with
    | some content => some ⟨ws, c, pr, content⟩
    | none => none
  | none => none

/-- Stage of `ITEM_RE` after `- [c]`: the `\s+` run (maximal, since `**[`
starts with a non-whitespace character) followed by the literal `**[`. -/
def matchCheckbox (ws : Str) (c : Char) (r2 : Str) : Option ItemMatch :=
  if r2.takeWhile isSpaceJS ≠ [] ∧ (str "**[").isPrefixOf (r2.dropWhile isSpaceJS) then
    matchAfterPr ws c ((r2.dropWhile isSpaceJS).drop 3)
  else none

/-- Stage of `ITEM_RE` after group 1: the literal `- [`, the checkbox
character class `[ xX]`, and the literal `]`. -/
def matchAfterWs (ws : Str) : Str → Option ItemMatch
  | '-' :: ' ' :: '[' :: c :: ']' :: r2 =>
    if c = ' ' || c = 'x' || c = 'X' then matchCheckbox ws c r2 else none
  | _ => none

/-- Full matcher for `ITEM_RE` on one line, returning the capture groups.
Group 1 is the maximal leading whitespace run (the following literal `- `
starts with a non-whitespace character, so backtracking cannot shorten it). -/
def matchItemLine (line : Str) : Option ItemMatch :=
  matchAfterWs (line.takeWhile isSpaceJS) (line.dropWhile isSpaceJS)

def parsePriority (raw : Str) : PlanItemPriority :=
  if raw = str "HIGH" then .high
  else if raw = str "MED" then .medium
  else if raw = str "LOW" then .low
  else .medium

def parseStatus (checkbox : Str) (rest : Str) : PlanItemStatus :=
  if jsIncludes rest cancelledTok then .cancelled
  else if jsIncludes rest inProgressTok then .in_progress
  else if (trimStr checkbox).map Char.toLower = ['x'] then .completed
  else .pending

structure ParsedLine where
  indent : ℚ
  item : PlanItem

/-- The item-collection loop of `markdownToPlan`: scan every line against
`ITEM_RE`; for each match, `indent = match[1].length / 2` (exact division:
JS numbers divide these small integers exactly, modelled with `mkRat`),
the content is `match[4].trim()`, the status comes from
`parseStatus(match[2], line)` and the priority from `parsePriority(match[3])`.
Each matched line consumes the next identifier from the `freshId` supply
(modelling `crypto.randomUUID()`). -/
def collectItems (freshId : Nat → Str) : List Str → Nat → List ParsedLine
  | [], _ => []
  | l :: ls, n =>
    match matchItemLine l with
    | none => collectItems freshId ls n
    | some m =>
      { indent := mkRat m.ws.length 2,
        item := .mk (freshId n) (trimStr m.content) (parseStatus [m.checkbox] l)
                    (parsePriority m.priority) none } :: collectItems freshId ls (n + 1)

/-- The regex `/Shared from ([^|]+)/`: leftmost occurrence of the literal
followed by at least one non-`|` character; the capture is the maximal
non-`|` run.  On failure at one position the engine retries at the next. -/
def sourceCapture : Str → Option Str
  | [] => none
  | c :: cs =>
    if (str "Shared from ").isPrefixOf (c :: cs) then
      let cap := ((c :: cs).drop 12).takeWhile (fun ch => ch ≠ '|')
      if cap = [] then sourceCapture cs else some cap
    else sourceCapture cs

/-- The regex `/Updated: (.+)/`: leftmost occurrence of the literal followed
by at least one `.`-character; the capture is the maximal run of
`.`-characters. -/
def dateCapture : Str → Option Str
  | [] => none
  | c :: cs =>
    if (str "Updated: ").isPrefixOf (c :: cs) then
      let cap := ((c :: cs).drop 9).takeWhile isDotChar
      if cap = [] then dateCapture cs else some cap
    else dateCapture cs

/-- `lines.indexOf(metaLine ?? "")`. -/
def metaIdxOf (lines : List Str) (metaLine : Option Str) : Int :=
  jsIndexOf lines (metaLine.getD [])

/-- `lines.findIndex(l => l.startsWith("## Tasks"))`. -/
def tasksIdxOf (lines : List Str) : Int :=
  jsFindIndex (fun l => (str "## Tasks").isPrefixOf l) lines

/-- The `descLines` span: `lines.slice(metaIdx + 1, tasksIdx)` with blank
lines and any `## Overview` line filtered out. -/
def descSpan (lines : List Str) (metaLine : Option Str) : List Str :=
  ((lines.drop (metaIdxOf lines metaLine + 1).toNat).take
      (tasksIdxOf lines - metaIdxOf lines metaLine - 1).toNat).filter
    (fun l => trimStr l ≠ [] ∧ trimStr l ≠ str "## Overview")

/-- Description extraction: all lines strictly between the metadata line
(`lines.indexOf(metaLine ?? "")`) and the `## Tasks` heading, with blank
lines and any `## Overview` line filtered out; `none` when that span is
empty (note the slice in `descSpan` is empty anyway when the guard fails,
so hoisting it out of the guard is value-preserving). -/
def extractDescription (lines : List Str) (metaLine : Option Str) : Option Str :=
  if 0 ≤ metaIdxOf lines metaLine ∧ metaIdxOf lines metaLine + 1 < tasksIdxOf lines then
    if 0 < (descSpan lines metaLine).length then
      some (trimStr (joinWith '\n' (descSpan lines metaLine)))
    else none
  else none

-- ---------------------------------------------------------------------------
-- buildTree: flat indented list -> forest
-- ---------------------------------------------------------------------------

/-- A stack frame of `buildTree`.  In the source, `items` is a mutable array
that is simultaneously the `children` array of the item that owns the frame
(aliasing); here frames accumulate their items and the accumulated list is
written back into the owning item when the frame is popped. -/
structure Frame where
  indent : ℚ
  items : List PlanItem

/-- Set the `children` of the last item of `its` to `cs`: the functional
rendering of the aliasing `item.children = frame.items` at pop time (the
owner of a popped frame is always the last item pushed into the frame
below). -/
def attachLast (its : List PlanItem) (cs : List PlanItem) : List PlanItem :=
  match its with
  | [] => []
  | [it] => [it.withKids (some cs)]
  | it :: it2 :: rest => it :: attachLast (it2 :: rest) cs

/-- The `while (stack.length > 1 && stack[stack.length-1].indent >= indent)
stack.pop()` loop, with `top` the current top frame and the tail of the
stack passed as a list.  Popping writes the popped frame's accumulated
items into its owner (the last item of the frame below). -/
def popGEGo (ind : ℚ) (top : Frame) : List Frame → List Frame
  | [] => [top]
  | next :: rest =>
    if ind ≤ top.indent then
      popGEGo ind ⟨next.indent, attachLast next.items top.items⟩ rest
    else top :: next :: rest

def popGE (ind : ℚ) : List Frame → List Frame
  | [] => []
  | top :: rest => popGEGo ind top rest

/-- One iteration of the `for (const { indent, item } of parsed)` loop:
pop to the parent level, append the item (with `item.children = []`) to the
parent frame, push a new frame for the item's children. -/
def pushItem (s : List Frame) (p : ParsedLine) : List Frame :=
  match popGE p.indent s with
  | [] => []
  | top :: rest =>
    ⟨p.indent, []⟩ :: ⟨top.indent, top.items ++ [p.item.withKids (some [])]⟩ :: rest

/-- Write every remaining frame's accumulated items into its owner, ending
with the root frame.  In the source this is implicit: the shared arrays are
already in place when the loop ends. -/
def closeAllGo (top : Frame) : List Frame → Frame
  | [] => top
  | next :: rest => closeAllGo ⟨next.indent, attachLast next.items top.items⟩ rest

mutual

/-- `cleanChildren`: recursively delete `children` arrays that ended up
empty. -/
def cleanItem : PlanItem → PlanItem
  | .mk i c s p ch => .mk i c s p (cleanKids ch)

def cleanKids : Option (List PlanItem) → Option (List PlanItem)
  | none => none
  | some [] => none
  | some (it :: its) => some (cleanItems (it :: its))

def cleanItems : List PlanItem → List PlanItem
  | [] => []
  | it :: its => cleanItem it :: cleanItems its

end

def buildTree (parsed : List ParsedLine) : List PlanItem :=
  match parsed.foldl pushItem [⟨-1, []⟩] with
  | [] => []
  | top :: rest => cleanItems (closeAllGo top rest).items

-- ---------------------------------------------------------------------------
-- markdownToPlan
-- ---------------------------------------------------------------------------

/-- `lines.find(l => l.startsWith("# Plan: "))`, stripped and trimmed, with
the fixed default when absent. -/
def extractTitle (lines : List Str) : Str :=
  match lines.find? (fun l => (str "# Plan: ").isPrefixOf l) with
  | some l => trimStr (replaceFirst l (str "# Plan: ") [])
  | none => str "Untitled Plan"

/-- `lines.find(l => l.startsWith("> Shared from "))`. -/
def metaLineOf (lines : List Str) : Option Str :=
  lines.find? (fun l => (str "> Shared from ").isPrefixOf l)

/-- The `source` extraction: capture of `/Shared from ([^|]+)/` on the
metadata line, trimmed, defaulting to `"unknown"`. -/
def extractSource (metaLine : Option Str) : Str :=
  match metaLine with
  | some l =>
    match sourceCapture l with
    | some s => trimStr s
    | none => str "unknown"
  | none => str "unknown"

/-- The `updatedAt` extraction: capture of `/Updated: (.+)/` on the metadata
line, trimmed, defaulting to the current time (`new Date().toISOString()`,
modelled by the explicit `now`). -/
def extractUpdatedAt (now : Str) (metaLine : Option Str) : Str :=
  match metaLine with
  | some l =>
    match dateCapture l with
    | some d => trimStr d
    | none => now
  | none => now

/-- The plan assembled by `markdownToPlan` once the marker gate has passed:
field-by-field extraction over the split lines; `createdAt` is set equal to
the extracted `updatedAt`. -/
def parsePlanLines (freshId : Nat → Str) (now : Str) (lines : List Str) : Plan :=
  { title := extractTitle lines,
    description := extractDescription lines (metaLineOf lines),
    items := buildTree (collectItems freshId lines 0),
    metadata := { source := extractSource (metaLineOf lines), sessionId := none,
                  createdAt := extractUpdatedAt now (metaLineOf lines),
                  updatedAt := extractUpdatedAt now (metaLineOf lines) } }

def markdownToPlan (freshId : Nat → Str) (now : Str) (md : Str) : Option Plan :=
  if jsIncludes md PLAN_MARKER = false then none
  else some (parsePlanLines freshId now (splitOnChar '\n' md))

/-- Check if a chat message contains a plan created by this MCP server. -/
def isPlanMessage (content : Str) : Bool :=
  jsIncludes content PLAN_MARKER

end CochatPlan

-- ---------------------------------------------------------------------------
-- Basic lemmas about the string primitives
-- ---------------------------------------------------------------------------

namespace CochatPlan

theorem jsIncludes_iff (s sub : Str) : jsIncludes s sub = true ↔ sub <:+: s := by
  induction s with
  | nil =>
    simp [jsIncludes, List.isPrefixOf_iff_prefix]
  | cons c t ih =>
    simp only [jsIncludes, Bool.or_eq_true, List.isPrefixOf_iff_prefix, ih,
      List.infix_cons_iff]

theorem joinWith_cons (c : Char) (a : Str) (l : List Str) (h : l ≠ []) :
    joinWith c (a :: l) = a ++ c :: joinWith c l := by
  cases l with
  | nil => exact absurd rfl h
  | cons b bs => rfl

end CochatPlan

namespace CochatPlan

theorem planLines_cons (p : Plan) :
    ∃ l, planLines p = PLAN_MARKER :: (str "# Plan: " ++ p.title) :: l := by
  rw [planLines]
  refine ⟨[] :: (str "> Shared from " ++ p.metadata.source ++ str " | Updated: " ++
      p.metadata.updatedAt) :: [] ::
    ((match p.description with
      | some d => if d = [] then [] else [str "## Overview", [], d, []]
      | none => []) ++
      str "## Tasks" :: [] :: (formatItems p.items 0 ++ [[], str "---", planFooter])), ?_⟩
  simp

theorem marker_starts_doc (p : Plan) : PLAN_MARKER <+: planToMarkdown p := by
  obtain ⟨l, hl⟩ := planLines_cons p
  rw [planToMarkdown, hl, joinWith_cons _ _ _ (by simp)]
  exact List.prefix_append _ _

/-- C2: `markdownToPlan` succeeds exactly on inputs containing the plan
marker sentinel: it returns `none` if and only if the sentinel substring is
absent, and `some` plan whenever it is present.  Totality of the Lean
function models the "never throws" part of the contract. -/
theorem markerGate_iff : ∀ (freshId : Nat → Str) (now md : Str),
    (markdownToPlan freshId now md).isSome = jsIncludes md PLAN_MARKER ∧
    (markdownToPlan freshId now md = none ↔ jsIncludes md PLAN_MARKER = false) := by
  intro f now md
  cases h : jsIncludes md PLAN_MARKER <;> simp [markdownToPlan, h]

/-- C4: `isPlanMessage` is exactly substring containment of the sentinel
(independent of well-formedness), it accepts every serialized plan, and it
rejects the empty string. -/
theorem isPlanMessage_spec :
    (∀ t, (isPlanMessage t = true ↔ PLAN_MARKER <:+: t)) ∧
    (∀ p, isPlanMessage (planToMarkdown p) = true) ∧
    isPlanMessage (str "") = false := by
  refine ⟨fun t => jsIncludes_iff t PLAN_MARKER, fun p => ?_, by decide⟩
  exact (jsIncludes_iff _ _).2 (marker_starts_doc p).isInfix

/-- The keyword inside the bold priority tag, shared by the serializer's
`**[…]**` label and the regex alternation `(HIGH|MED|LOW)`. -/
def priorityTag : PlanItemPriority → Str
  | .high => str "HIGH"
  | .medium => str "MED"
  | .low => str "LOW"

/-- C5: the serializer writes exactly `**[HIGH]**` / `**[MED]**` /
`**[LOW]**`; the parser maps the captured keyword back (`HIGH→high`,
`MED→medium`, `LOW→low`, anything else → `medium`); hence every priority
survives the wire form unchanged. -/
theorem priorityLabel_fidelity :
    (∀ p, priorityLabel p = str "**[" ++ priorityTag p ++ str "]**") ∧
    (∀ p, parsePriority (priorityTag p) = p) ∧
    (∀ r, parsePriority r =
      if r = str "HIGH" then .high
      else if r = str "MED" then .medium
      else if r = str "LOW" then .low
      else .medium) :=
  ⟨by intro p; cases p <;> rfl, by intro p; cases p <;> rfl, fun r => rfl⟩

/-- C3: the checkbox is `[x]` exactly for `completed` (all other statuses
render `[ ]`); the serialized line appends ` *(in progress)*` exactly for
`in_progress` and ` ~~cancelled~~` exactly for `cancelled`; and on parse
the cancelled annotation wins, then the in-progress annotation, then the
checkbox character (`x`/`X` checked → completed, unchecked → pending). -/
theorem statusEncoding_spec :
    (∀ s, (statusCheckbox s = str "[x]" ↔ s = .completed)) ∧
    (∀ it ind, itemLine it ind =
      (jsRepeat (str "  ") ind ++ str "- ") ++ statusCheckbox it.status ++ [' '] ++
        priorityLabel it.priority ++ [' '] ++ it.content ++
        (if it.status = .in_progress then ' ' :: inProgressTok
         else if it.status = .cancelled then ' ' :: cancelledTok
         else [])) ∧
    (∀ i c s p ind, formatItem (.mk i c s p none) ind = itemLine (.mk i c s p none) ind) ∧
    (∀ cb rest, parseStatus cb rest =
      if jsIncludes rest cancelledTok then .cancelled
      else if jsIncludes rest inProgressTok then .in_progress
      else if (trimStr cb).map Char.toLower = ['x'] then .completed
      else .pending) ∧
    ((trimStr (str "x")).map Char.toLower = ['x'] ∧
     (trimStr (str "X")).map Char.toLower = ['x'] ∧
     (trimStr (str " ")).map Char.toLower ≠ ['x']) := by
  refine ⟨by intro s; cases s <;> decide, fun it ind => ?_, fun i c s p ind => rfl,
    fun cb rest => rfl, by decide⟩
  cases it with
  | mk i c s p ch =>
    cases s <;> rfl

end CochatPlan

namespace CochatPlan

theorem markdownToPlan_some (freshId : Nat → Str) (now md : Str)
    (hm : jsIncludes md PLAN_MARKER = true) :
    markdownToPlan freshId now md = some (parsePlanLines freshId now (splitOnChar '\n' md)) := by
  rw [markdownToPlan, hm]
  rfl

-- ---------------------------------------------------------------------------
-- C6: no item returned by the parser carries an empty children list
-- ---------------------------------------------------------------------------

mutual

/-- Does an item (recursively) avoid `children = some []`? -/
def noEmptyKidsI : PlanItem → Bool
  | .mk _ _ _ _ ch => noEmptyKidsO ch

def noEmptyKidsO : Option (List PlanItem) → Bool
  | none => true
  | some [] => false
  | some (it :: its) => noEmptyKidsI it && noEmptyKidsL (it :: its).tail

def noEmptyKidsL : List PlanItem → Bool
  | [] => true
  | it :: its => noEmptyKidsI it && noEmptyKidsL its

end

mutual

theorem noEmptyKids_cleanItem : ∀ it, noEmptyKidsI (cleanItem it) = true
  | .mk i c s p ch => by
    rw [cleanItem, noEmptyKidsI, noEmptyKids_cleanKids ch]

theorem noEmptyKids_cleanKids : ∀ ch, noEmptyKidsO (cleanKids ch) = true
  | none => rfl
  | some [] => rfl
  | some (it :: its) => by
    rw [cleanKids, cleanItems, noEmptyKidsO, List.tail_cons,
      noEmptyKids_cleanItem it, noEmptyKids_cleanItems its, Bool.and_self]

theorem noEmptyKids_cleanItems : ∀ its, noEmptyKidsL (cleanItems its) = true
  | [] => rfl
  | it :: its => by
    rw [cleanItems, noEmptyKidsL, noEmptyKids_cleanItem it, noEmptyKids_cleanItems its,
      Bool.and_self]

end

theorem noEmptyKids_buildTree (parsed : List ParsedLine) :
    noEmptyKidsL (buildTree parsed) = true := by
  rw [buildTree]
  cases parsed.foldl pushItem [⟨-1, []⟩] with
  | nil => rfl
  | cons top rest => exact noEmptyKids_cleanItems _

def nilId : Nat → Str := fun _ => []

/-- Concrete plan whose only item has an explicit empty `children` array. -/
def demoPlanC6 : Plan :=
  { title := str "C", description := none,
    items := [.mk [] (str "Solo") .pending .medium (some [])],
    metadata := { source := str "s", sessionId := none,
                  createdAt := [], updatedAt := str "U" } }

/-- C6: no `PlanItem` in any parser output carries `children = some []`
(the field is `none` or a non-empty list), and in particular an item
serialized with an explicit empty children array comes back with no
children field at all after one round trip. -/
theorem noEmptyChildren_invariant :
    (∀ (freshId : Nat → Str) (now md : Str) (P : Plan),
      markdownToPlan freshId now md = some P → noEmptyKidsL P.items = true) ∧
    (markdownToPlan nilId [] (planToMarkdown demoPlanC6)).map
        (fun q => q.items.map PlanItem.children) = some [none] := by
  constructor
  · intro f now md P h
    rw [markdownToPlan] at h
    by_cases hm : jsIncludes md PLAN_MARKER = false
    · rw [if_pos hm] at h
      exact absurd h (by simp)
    · rw [if_neg hm] at h
      have hP : P = parsePlanLines f now (splitOnChar '\n' md) := (Option.some.inj h).symm
      rw [hP]
      exact noEmptyKids_buildTree _
  · rfl

end CochatPlan

namespace CochatPlan

-- ---------------------------------------------------------------------------
-- C9: annotation tokens act anywhere in a matched line
-- ---------------------------------------------------------------------------

/-- Concrete plan with a pending item whose content merely mentions the
cancelled token. -/
def demoPlanC9 : Plan :=
  { title := str "T", description := none,
    items := [.mk [] (str "see ~~cancelled~~ note") .pending .high none],
    metadata := { source := str "s", sessionId := none,
                  createdAt := [], updatedAt := str "U" } }

/-- C9: `parseStatus` takes the whole line, so the annotation substrings act
anywhere in it: any matched line containing `~~cancelled~~` parses as
`cancelled`, otherwise any containing `*(in progress)*` parses as
`in_progress`; the item built by the scanning loop for a matched line uses
exactly `parseStatus(match[2], line)`.  Concretely, a pending item whose
content contains the cancelled token is parsed back as `cancelled`. -/
theorem annotationTokens_anywhere :
    (∀ cb rest, jsIncludes rest cancelledTok = true → parseStatus cb rest = .cancelled) ∧
    (∀ cb rest, jsIncludes rest cancelledTok = false → jsIncludes rest inProgressTok = true →
      parseStatus cb rest = .in_progress) ∧
    (∀ (freshId : Nat → Str) (l : Str) (ls : List Str) (n : Nat) (m : ItemMatch),
      matchItemLine l = some m →
      ∃ p rest, collectItems freshId (l :: ls) n = p :: rest ∧
        p.item.status = parseStatus [m.checkbox] l) ∧
    (markdownToPlan nilId [] (planToMarkdown demoPlanC9)).map
        (fun q => q.items.map PlanItem.status) = some [.cancelled] := by
  refine ⟨fun cb rest h => ?_, fun cb rest h1 h2 => ?_, fun f l ls n m hm => ?_, rfl⟩
  · rw [parseStatus, h]
    rfl
  · rw [parseStatus, h1, h2]
    rfl
  · have hc : collectItems f (l :: ls) n =
        { indent := mkRat m.ws.length 2,
          item := .mk (f n) (trimStr m.content) (parseStatus [m.checkbox] l)
                      (parsePriority m.priority) none } :: collectItems f ls (n + 1) := by
      rw [collectItems, hm]
    exact ⟨_, _, hc, rfl⟩

end CochatPlan

namespace CochatPlan

-- ---------------------------------------------------------------------------
-- C8: parsed metadata timestamps
-- ---------------------------------------------------------------------------

theorem prefix_of_append_of_length_le {x y z : Str} (h : x <+: y ++ z)
    (hl : x.length ≤ y.length) : x <+: y := by
  obtain ⟨t, ht⟩ := h
  rcases List.append_eq_append_iff.1 ht with ⟨a', ha', _⟩ | ⟨c', hc', _⟩
  · exact ⟨a', ha'.symm⟩
  · have hlen : y.length + c'.length ≤ y.length := by
      simpa [hc'] using hl
    have : c' = [] := List.eq_nil_of_length_eq_zero (by omega)
    exact ⟨[], by simp [hc', this]⟩

theorem jsIncludes_cons_false {c : Char} {t sub : Str}
    (h : jsIncludes (c :: t) sub = false) :
    sub.isPrefixOf (c :: t) = false ∧ jsIncludes t sub = false := by
  rw [jsIncludes] at h
  exact ⟨by simpa using (Bool.or_eq_false_iff.1 h).1, (Bool.or_eq_false_iff.1 h).2⟩

theorem dateTok_not_prefix (a ts : Str) (hne : a ≠ [])
    (hni : jsIncludes a (str "Updated: ") = false) :
    ¬ (str "Updated: ") <+: (a ++ (str "Updated: " ++ ts)) := by
  intro h
  by_cases hl : (str "Updated: ").length ≤ a.length
  · have h2 : (str "Updated: ") <+: a := prefix_of_append_of_length_le h hl
    rw [(jsIncludes_iff a (str "Updated: ")).2 h2.isInfix] at hni
    cases hni
  · push_neg at hl
    obtain ⟨t, ht⟩ := h
    rcases List.append_eq_append_iff.1 ht with ⟨a', ha', _⟩ | ⟨c', hc', hrest⟩
    · have := congrArg List.length ha'
      simp at this
      omega
    · have hc'ne : c' ≠ [] := by
        intro hnil
        rw [hnil, List.append_nil] at hc'
        rw [hc'] at hl
        omega
    -- from the equation, c' and a start with the same character
      have h3 : c' ++ t = a ++ (c' ++ ts) := by
        have h4 : a ++ (c' ++ t) = a ++ (str "Updated: " ++ ts) := by
          rw [← List.append_assoc, ← hc']
          exact ht
        have h5 : c' ++ t = str "Updated: " ++ ts := List.append_cancel_left h4
        rw [h5, hc', List.append_assoc]
      have hheadU : a.head? = some 'U' := by
        cases a with
        | nil => exact absurd rfl hne
        | cons x xs =>
          have : str "Updated: " = x :: (xs ++ c') := hc'
          have hx := List.head_eq_of_cons_eq this
          simp [hx.symm]
      have hheads : c'.head? = a.head? := by
        cases c' with
        | nil => exact absurd rfl hc'ne
        | cons x xs =>
          cases a with
          | nil => exact absurd rfl hne
          | cons y ys =>
            have := List.head_eq_of_cons_eq h3
            simp [this]
      have hmem : c' ∈ (str "Updated: ").tails := (List.mem_tails _ _).2 ⟨a, hc'.symm⟩
      have hlt : c' ≠ str "Updated: " := by
        intro hEq
        have := congrArg List.length hc'
        rw [hEq] at this
        simp [List.length_append] at this
        exact hne this
      have hfact : ∀ x ∈ (str "Updated: ").tails,
          x = str "Updated: " ∨ x = [] ∨ x.head? ≠ some 'U' := by decide
      rcases hfact c' hmem with hEq | hEq | hEq
      · exact hlt hEq
      · exact hc'ne hEq
      · rw [hheads, hheadU] at hEq
        exact hEq rfl

theorem dateCapture_append (a ts : Str)
    (hni : jsIncludes a (str "Updated: ") = false)
    (hne : ts ≠ []) (hdot : ts.all isDotChar = true) :
    dateCapture (a ++ (str "Updated: " ++ ts)) = some ts := by
  have htake : ts.takeWhile isDotChar = ts := by
    rw [List.takeWhile_eq_self_iff]
    simpa [List.all_eq_true] using hdot
  induction a with
  | nil =>
    rw [List.nil_append,
      show str "Updated: " ++ ts = 'U' :: (str "pdated: " ++ ts) from rfl, dateCapture]
    have hpre : (str "Updated: ").isPrefixOf ('U' :: (str "pdated: " ++ ts)) = true := by
      rw [List.isPrefixOf_iff_prefix,
        show ('U' :: (str "pdated: " ++ ts)) = str "Updated: " ++ ts from rfl]
      exact List.prefix_append _ _
    rw [if_pos hpre]
    have hdrop : ('U' :: (str "pdated: " ++ ts)).drop 9 = ts := by
      rw [show ('U' :: (str "pdated: " ++ ts)) = str "Updated: " ++ ts from rfl]
      rw [show (9 : Nat) = (str "Updated: ").length from rfl, List.drop_left]
    rw [hdrop, htake, if_neg (by simpa using hne)]
  | cons c cs ih =>
    obtain ⟨hp, hincl⟩ := jsIncludes_cons_false hni
    rw [List.cons_append, dateCapture]
    have hpre : (str "Updated: ").isPrefixOf (c :: (cs ++ (str "Updated: " ++ ts))) = false := by
      rw [show (c :: (cs ++ (str "Updated: " ++ ts))) = (c :: cs) ++ (str "Updated: " ++ ts)
        from rfl]
      rw [Bool.eq_false_iff]
      intro hcontra
      exact dateTok_not_prefix (c :: cs) ts (by simp) hni
        (List.isPrefixOf_iff_prefix.1 hcontra)
    rw [if_neg (by simp [hpre])]
    exact ih hincl

end CochatPlan

namespace CochatPlan

theorem markdownToPlan_inv {f : Nat → Str} {now md : Str} {P : Plan}
    (h : markdownToPlan f now md = some P) :
    P = parsePlanLines f now (splitOnChar '\n' md) := by
  rw [markdownToPlan] at h
  by_cases hm : jsIncludes md PLAN_MARKER = false
  · rw [if_pos hm] at h
    cases h
  · rw [if_neg hm] at h
    exact (Option.some.inj h).symm

/-- C8: every parsed plan has `createdAt` equal to `updatedAt`; when the
metadata line is present and the `Updated:` capture succeeds, `updatedAt`
is exactly the captured text, trimmed; and on a well-formed provenance
line `> Shared from {src} | Updated: {ts}` the capture is exactly `ts`. -/
theorem parsedTimestamps :
    (∀ (freshId : Nat → Str) (now md : Str) (P : Plan),
      markdownToPlan freshId now md = some P →
      P.metadata.createdAt = P.metadata.updatedAt) ∧
    (∀ (freshId : Nat → Str) (now md : Str) (P : Plan) (l d : Str),
      markdownToPlan freshId now md = some P →
      metaLineOf (splitOnChar '\n' md) = some l →
      dateCapture l = some d →
      P.metadata.updatedAt = trimStr d) ∧
    (∀ src ts : Str, ts ≠ [] → ts.all isDotChar = true →
      jsIncludes (str "> Shared from " ++ src ++ str " | ") (str "Updated: ") = false →
      dateCapture (str "> Shared from " ++ src ++ str " | Updated: " ++ ts) = some ts) := by
  refine ⟨fun f now md P h => ?_, fun f now md P l d h hl hd => ?_, fun src ts h1 h2 h3 => ?_⟩
  · rw [markdownToPlan_inv h]
    rfl
  · rw [markdownToPlan_inv h]
    show extractUpdatedAt now (metaLineOf (splitOnChar '\n' md)) = trimStr d
    rw [extractUpdatedAt.eq_def, hl]
    simp [hd]
  · have hassoc : str "> Shared from " ++ src ++ str " | Updated: " ++ ts =
        (str "> Shared from " ++ src ++ str " | ") ++ (str "Updated: " ++ ts) := by
      rw [show str " | Updated: " = str " | " ++ str "Updated: " from rfl]
      simp [List.append_assoc]
    rw [hassoc]
    exact dateCapture_append _ _ h3 h1 h2

/-- Witness for `parsedTimestamps` at a concrete provenance line. -/
theorem parsedTimestamps_witness :
    (str "2024-05-01" : Str) ≠ [] ∧ (str "2024-05-01").all isDotChar = true ∧
    jsIncludes (str "> Shared from " ++ str "cochat" ++ str " | ") (str "Updated: ") = false ∧
    dateCapture (str "> Shared from " ++ str "cochat" ++ str " | Updated: " ++ str "2024-05-01") =
      some (str "2024-05-01") :=
  ⟨by decide, by decide, by decide,
   parsedTimestamps.2.2 (str "cochat") (str "2024-05-01") (by decide) (by decide) (by decide)⟩

end CochatPlan

namespace CochatPlan

-- ---------------------------------------------------------------------------
-- C7: field-by-field defaulting
-- ---------------------------------------------------------------------------

/-- C7: when no line starts with `"# Plan: "` the parsed title is the fixed
default; when no line starts with `"> Shared from "` the parsed source is
the generic fallback `"unknown"`; and when the filtered description span is
empty the description field is absent (`none`), not an empty string. -/
theorem fieldDefaulting :
    (∀ (freshId : Nat → Str) (now md : Str) (P : Plan),
      markdownToPlan freshId now md = some P →
      (∀ l ∈ splitOnChar '\n' md, (str "# Plan: ").isPrefixOf l = false) →
      P.title = str "Untitled Plan") ∧
    (∀ (freshId : Nat → Str) (now md : Str) (P : Plan),
      markdownToPlan freshId now md = some P →
      (∀ l ∈ splitOnChar '\n' md, (str "> Shared from ").isPrefixOf l = false) →
      P.metadata.source = str "unknown") ∧
    (∀ (lines : List Str) (metaLine : Option Str),
      descSpan lines metaLine = [] → extractDescription lines metaLine = none) ∧
    (∀ (freshId : Nat → Str) (now md : Str) (P : Plan),
      markdownToPlan freshId now md = some P →
      P.description =
        extractDescription (splitOnChar '\n' md) (metaLineOf (splitOnChar '\n' md))) := by
  refine ⟨fun f now md P h hno => ?_, fun f now md P h hno => ?_,
    fun lines ml hspan => ?_, fun f now md P h => ?_⟩
  · rw [markdownToPlan_inv h]
    show extractTitle (splitOnChar '\n' md) = str "Untitled Plan"
    rw [extractTitle.eq_def, List.find?_eq_none.2
      (by intro x hx; simp [hno x hx])]
  · rw [markdownToPlan_inv h]
    show extractSource (metaLineOf (splitOnChar '\n' md)) = str "unknown"
    rw [extractSource.eq_def, metaLineOf, List.find?_eq_none.2
      (by intro x hx; simp [hno x hx])]
  · rw [extractDescription]
    by_cases hg : 0 ≤ metaIdxOf lines ml ∧ metaIdxOf lines ml + 1 < tasksIdxOf lines
    · rw [if_pos hg, hspan]
      rfl
    · rw [if_neg hg]
  · rw [markdownToPlan_inv h]
    rfl

/-- Witness for `fieldDefaulting`: a bare marker document has no title line,
no provenance line and an empty description span, so every default fires. -/
theorem fieldDefaulting_witness :
    (∀ l ∈ splitOnChar '\n' PLAN_MARKER, (str "# Plan: ").isPrefixOf l = false) ∧
    (∀ l ∈ splitOnChar '\n' PLAN_MARKER, (str "> Shared from ").isPrefixOf l = false) ∧
    descSpan (splitOnChar '\n' PLAN_MARKER) (metaLineOf (splitOnChar '\n' PLAN_MARKER)) = [] ∧
    (parsePlanLines nilId [] (splitOnChar '\n' PLAN_MARKER)).title = str "Untitled Plan" ∧
    (parsePlanLines nilId [] (splitOnChar '\n' PLAN_MARKER)).metadata.source = str "unknown" ∧
    extractDescription (splitOnChar '\n' PLAN_MARKER)
      (metaLineOf (splitOnChar '\n' PLAN_MARKER)) = none := by
  refine ⟨by decide, by decide, by decide, ?_, ?_, ?_⟩
  · exact fieldDefaulting.1 nilId [] PLAN_MARKER _
      (markdownToPlan_some nilId [] PLAN_MARKER (by decide)) (by decide)
  · exact fieldDefaulting.2.1 nilId [] PLAN_MARKER _
      (markdownToPlan_some nilId [] PLAN_MARKER (by decide)) (by decide)
  · exact fieldDefaulting.2.2.1 _ _ (by decide)

end CochatPlan

namespace CochatPlan

/-- Witness for `noEmptyChildren_invariant` at a concrete parsed document. -/
theorem noEmptyChildren_witness :
    markdownToPlan nilId [] (planToMarkdown demoPlanC6) =
      some (parsePlanLines nilId [] (splitOnChar '\n' (planToMarkdown demoPlanC6))) ∧
    noEmptyKidsL (parsePlanLines nilId [] (splitOnChar '\n' (planToMarkdown demoPlanC6))).items =
      true :=
  ⟨rfl, noEmptyChildren_invariant.1 nilId [] (planToMarkdown demoPlanC6) _ rfl⟩

/-- Witness for `annotationTokens_anywhere` at a concrete line. -/
theorem annotationTokens_witness :
    jsIncludes (str "x ~~cancelled~~ y") cancelledTok = true ∧
    parseStatus (str " ") (str "x ~~cancelled~~ y") = .cancelled :=
  ⟨by decide, annotationTokens_anywhere.1 (str " ") (str "x ~~cancelled~~ y") (by decide)⟩

end CochatPlan

namespace CochatPlan

-- ---------------------------------------------------------------------------
-- C10: buildTree preserves the matched lines (DFS order, no loss)
-- ---------------------------------------------------------------------------

/-- An item with its `children` field erased. -/
def stripKids (it : PlanItem) : PlanItem := it.withKids none

mutual

/-- Depth-first, left-to-right traversal of a forest; every emitted node has
its `children` erased so the traversal is a flat list of the node payloads. -/
def dfsItems : List PlanItem → List PlanItem
  | [] => []
  | it :: its => dfsItem it ++ dfsItems its

def dfsItem : PlanItem → List PlanItem
  | .mk i c s p ch => .mk i c s p none :: dfsKids ch

def dfsKids : Option (List PlanItem) → List PlanItem
  | none => []
  | some cs => dfsItems cs

end

mutual

theorem dfsItem_clean : ∀ it, dfsItem (cleanItem it) = dfsItem it
  | .mk i c s p ch => by
    rw [cleanItem, dfsItem, dfsItem, dfsKids_clean ch]

theorem dfsKids_clean : ∀ ch, dfsKids (cleanKids ch) = dfsKids ch
  | none => rfl
  | some [] => rfl
  | some (it :: its) => by
    rw [cleanKids, dfsKids, dfsKids, cleanItems, dfsItems, dfsItems,
      dfsItem_clean it, dfsItems_clean its]

theorem dfsItems_clean : ∀ its, dfsItems (cleanItems its) = dfsItems its
  | [] => rfl
  | it :: its => by
    rw [cleanItems, dfsItems, dfsItems, dfsItem_clean it, dfsItems_clean its]

end

/-- Does the last item of the list have `children = some []`?  (`false` on
the empty list.)  This is the shape of every sibling list sitting below an
open frame in `buildTree`'s stack: the frame's owner was appended with a
fresh empty children list and receives its real children only when the
frame above it is popped. -/
def kidsNilB : Option (List PlanItem) → Bool
  | some [] => true
  | some (_ :: _) => false
  | none => false

def lastKidsNil : List PlanItem → Bool
  | [] => false
  | [it] => kidsNilB it.children
  | _ :: it :: its => lastKidsNil (it :: its)

theorem withKids_children (it : PlanItem) (ch : Option (List PlanItem)) :
    (it.withKids ch).children = ch := by
  cases it
  rfl

theorem lastKidsNil_append : ∀ (l : List PlanItem) (x : PlanItem),
    lastKidsNil (l ++ [x.withKids (some [])]) = true
  | [], x => by rw [List.nil_append, lastKidsNil, withKids_children]; rfl
  | [a], x => by
    rw [List.cons_append, List.nil_append, lastKidsNil, lastKidsNil, withKids_children]
    rfl
  | a :: b :: bs, x => by
    rw [List.cons_append, List.cons_append, lastKidsNil]
    have h := lastKidsNil_append (b :: bs) x
    rwa [List.cons_append] at h

theorem dfs_attachLast : ∀ (l cs : List PlanItem), lastKidsNil l = true →
    dfsItems (attachLast l cs) = dfsItems l ++ dfsItems cs
  | [], _, h => by cases h
  | [.mk i c s p ch], cs, h => by
    rw [lastKidsNil, PlanItem.children] at h
    cases ch with
    | none => cases h
    | some cs' =>
      cases cs' with
      | nil => simp [attachLast, PlanItem.withKids, dfsItems, dfsItem, dfsKids]
      | cons y ys => cases h
  | a :: b :: rest, cs, h => by
    rw [lastKidsNil] at h
    show dfsItems (a :: attachLast (b :: rest) cs) = _
    rw [dfsItems, dfs_attachLast (b :: rest) cs h]
    simp [dfsItems, List.append_assoc]

/-- DFS contents of all the frames strictly below the top of the stack,
bottom frames first. -/
def dfsRest : List Frame → List PlanItem
  | [] => []
  | f :: fs => dfsRest fs ++ dfsItems f.items

/-- Invariant on the below-top part of the stack: every frame has a
non-empty sibling list ending in an owner with an empty children list. -/
def stackOk (rest : List Frame) : Bool :=
  rest.all (fun f => lastKidsNil f.items)

theorem closeAllGo_dfs : ∀ (rest : List Frame) (top : Frame), stackOk rest = true →
    dfsItems (closeAllGo top rest).items = dfsRest rest ++ dfsItems top.items
  | [], top, _ => rfl
  | next :: rest2, top, h => by
    have hnext : lastKidsNil next.items = true := by
      simp [stackOk, List.all_cons] at h
      exact h.1
    have hrest : stackOk rest2 = true := by
      simp [stackOk, List.all_cons] at h
      simpa [stackOk, List.all_eq_true] using h.2
    rw [closeAllGo, closeAllGo_dfs rest2 _ hrest]
    show dfsRest rest2 ++ dfsItems (attachLast next.items top.items) = _
    rw [dfs_attachLast _ _ hnext, dfsRest, List.append_assoc]

theorem popGEGo_dfs : ∀ (rest : List Frame) (top : Frame) (ind : ℚ), stackOk rest = true →
    ∃ top' rest', popGEGo ind top rest = top' :: rest' ∧ stackOk rest' = true ∧
      dfsRest rest' ++ dfsItems top'.items = dfsRest rest ++ dfsItems top.items
  | [], top, ind, _ => ⟨top, [], rfl, rfl, rfl⟩
  | next :: rest2, top, ind, h => by
    have hnext : lastKidsNil next.items = true := by
      simp [stackOk, List.all_cons] at h
      exact h.1
    have hrest : stackOk rest2 = true := by
      simp [stackOk, List.all_cons] at h
      simpa [stackOk, List.all_eq_true] using h.2
    rw [popGEGo]
    by_cases hle : ind ≤ top.indent
    · rw [if_pos hle]
      obtain ⟨top', rest', heq, hok, hdfs⟩ :=
        popGEGo_dfs rest2 ⟨next.indent, attachLast next.items top.items⟩ ind hrest
      refine ⟨top', rest', heq, hok, ?_⟩
      rw [hdfs]
      show dfsRest rest2 ++ dfsItems (attachLast next.items top.items) = _
      rw [dfs_attachLast _ _ hnext, dfsRest, List.append_assoc]
    · rw [if_neg hle]
      exact ⟨top, next :: rest2, rfl, by simpa [stackOk, List.all_cons, hnext] using hrest, rfl⟩

theorem dfsItems_append : ∀ l1 l2 : List PlanItem,
    dfsItems (l1 ++ l2) = dfsItems l1 ++ dfsItems l2
  | [], l2 => rfl
  | it :: its, l2 => by
    rw [List.cons_append, dfsItems, dfsItems, dfsItems_append its l2, List.append_assoc]

theorem dfsItem_withKids_someNil (it : PlanItem) :
    dfsItem (it.withKids (some [])) = [stripKids it] := by
  cases it
  rfl

theorem foldl_pushItem_dfs : ∀ (ps : List ParsedLine) (top : Frame) (rest : List Frame),
    stackOk rest = true →
    ∃ top' rest', ps.foldl pushItem (top :: rest) = top' :: rest' ∧ stackOk rest' = true ∧
      dfsRest rest' ++ dfsItems top'.items =
        (dfsRest rest ++ dfsItems top.items) ++ ps.map (fun p => stripKids p.item)
  | [], top, rest, h => ⟨top, rest, rfl, h, by simp⟩
  | p :: ps', top, rest, h => by
    obtain ⟨t1, r1, hpop, hok1, hdfs1⟩ := popGEGo_dfs rest top p.indent h
    have hpush : pushItem (top :: rest) p =
        ⟨p.indent, []⟩ :: ⟨t1.indent, t1.items ++ [p.item.withKids (some [])]⟩ :: r1 := by
      rw [pushItem, popGE, hpop]
    have hok2 : stackOk (⟨t1.indent, t1.items ++ [p.item.withKids (some [])]⟩ :: r1) = true := by
      simpa [stackOk, List.all_cons, lastKidsNil_append] using hok1
    rw [List.foldl_cons, hpush]
    obtain ⟨top', rest', heq, hok, hdfs⟩ :=
      foldl_pushItem_dfs ps' ⟨p.indent, []⟩
        (⟨t1.indent, t1.items ++ [p.item.withKids (some [])]⟩ :: r1) hok2
    refine ⟨top', rest', heq, hok, ?_⟩
    rw [hdfs]
    show (dfsRest r1 ++ dfsItems (t1.items ++ [p.item.withKids (some [])]) ++ dfsItems []) ++ _ = _
    have hsplit : dfsItems (t1.items ++ [p.item.withKids (some [])]) =
        dfsItems t1.items ++ [stripKids p.item] := by
      rw [dfsItems_append, dfsItems, dfsItem_withKids_someNil]
      simp [dfsItems]
    rw [hsplit]
    rw [dfsItems]
    simp only [List.append_nil, List.map_cons]
    rw [← hdfs1]
    simp [List.append_assoc]

/-- C10: the depth-first left-to-right traversal of the forest returned by
`buildTree` is exactly the input sequence of matched items, in document
order, with nothing dropped, duplicated or reordered. -/
theorem buildTree_preserves_items :
    ∀ parsed : List ParsedLine,
      (∀ p ∈ parsed, p.item.children = none) →
      dfsItems (buildTree parsed) = parsed.map (fun p => p.item) := by
  intro parsed hch
  obtain ⟨top', rest', heq, hok, hdfs⟩ :=
    foldl_pushItem_dfs parsed ⟨-1, []⟩ [] rfl
  rw [buildTree, heq, dfsItems_clean, closeAllGo_dfs rest' top' hok, hdfs]
  simp only [dfsRest, dfsItems, List.nil_append, List.append_nil]
  apply List.map_congr_left
  intro p hp
  have := hch p hp
  cases hp' : p.item with
  | mk i c s pr ch =>
    rw [hp'] at this
    rw [stripKids, PlanItem.withKids]
    rw [PlanItem.children] at this
    rw [this]

end CochatPlan

namespace CochatPlan

/-- Concrete matched-line sequence with an irregular indent pattern
(dedent below the first item's level, then a partial re-indent). -/
def demoParsedC10 : List ParsedLine :=
  [⟨5, .mk [] (str "a") .pending .high none⟩,
   ⟨0, .mk [] (str "b") .completed .low none⟩,
   ⟨3, .mk [] (str "c") .cancelled .medium none⟩]

/-- Witness for `buildTree_preserves_items` at `demoParsedC10`. -/
theorem buildTree_preserves_items_witness :
    (∀ p ∈ demoParsedC10, p.item.children = none) ∧
    dfsItems (buildTree demoParsedC10) = demoParsedC10.map (fun p => p.item) := by
  have hch : ∀ p ∈ demoParsedC10, p.item.children = none := by
    intro p hp
    simp only [demoParsedC10, List.mem_cons, List.not_mem_nil, or_false] at hp
    rcases hp with rfl | rfl | rfl <;> rfl
  exact ⟨hch, buildTree_preserves_items demoParsedC10 hch⟩

end CochatPlan

namespace CochatPlan

-- ---------------------------------------------------------------------------
-- C1: round-trip identity — well-formedness side conditions
-- ---------------------------------------------------------------------------

/-- Content that survives the item-line grammar unchanged: non-empty,
already trimmed, made of `.`-matchable characters (no line terminators),
and not containing either status-annotation token. -/
def wfContent (c : Str) : Bool :=
  !c.isEmpty && trimStr c == c && c.all isDotChar &&
  !(jsIncludes c inProgressTok) && !(jsIncludes c cancelledTok)

mutual

def wfItem : PlanItem → Bool
  | .mk _ c _ _ ch => wfContent c && wfKids ch

def wfKids : Option (List PlanItem) → Bool
  | none => true
  | some cs => wfItems cs

def wfItems : List PlanItem → Bool
  | [] => true
  | it :: its => wfItem it && wfItems its

end

/-- A description line that the parser passes through unchanged: non-blank,
not the `## Overview` heading, not a `## Tasks` heading, and not matching
the item grammar. -/
def wfDescLine (l : Str) : Bool :=
  !(trimStr l).isEmpty && trimStr l != str "## Overview" &&
  !((str "## Tasks").isPrefixOf l) && (matchItemLine l).isNone

def wfDescription : Option Str → Bool
  | none => true
  | some d => d.isEmpty || (trimStr d == d && (splitOnChar '\n' d).all wfDescLine)

/-- Well-formed plans: those whose serialized document parses back to the
same title, description and item forest.  The conditions exclude exactly
the inputs on which the grammar is lossy: embedded newlines, untrimmed
text, annotation tokens inside content, and description lines that collide
with the document structure. -/
def wfPlan (p : Plan) : Bool :=
  !(p.title.contains '\n') && trimStr p.title == p.title &&
  !(p.metadata.source.contains '\n') && !(p.metadata.updatedAt.contains '\n') &&
  wfDescription p.description && wfItems p.items

-- ---------------------------------------------------------------------------
-- Expected parse of a serialized forest
-- ---------------------------------------------------------------------------

mutual

/-- Re-identify a forest with fresh identifiers in depth-first pre-order
starting at `n` (the order in which `markdownToPlan` consumes the
identifier supply). -/
def relabelItem (f : Nat → Str) (n : Nat) : PlanItem → PlanItem × Nat
  | .mk _ c s pr ch =>
    let r := relabelKids f (n + 1) ch
    (.mk (f n) c s pr r.1, r.2)

def relabelKids (f : Nat → Str) (n : Nat) :
    Option (List PlanItem) → Option (List PlanItem) × Nat
  | none => (none, n)
  | some cs =>
    let r := relabelItems f n cs
    (some r.1, r.2)

def relabelItems (f : Nat → Str) (n : Nat) : List PlanItem → List PlanItem × Nat
  | [] => ([], n)
  | it :: its =>
    let r1 := relabelItem f n it
    let r2 := relabelItems f r1.2 its
    (r1.1 :: r2.1, r2.2)

end

mutual

/-- The flat `ParsedLine` sequence the scanner produces for a serialized
forest: one line per item in depth-first order, children one level deeper,
every parsed item child-free. -/
def flatItem (d : ℚ) : PlanItem → List ParsedLine
  | .mk i c s pr ch => ⟨d, .mk i c s pr none⟩ :: flatKids (d + 1) ch

def flatKids (d : ℚ) : Option (List PlanItem) → List ParsedLine
  | none => []
  | some cs => flatItems d cs

def flatItems (d : ℚ) : List PlanItem → List ParsedLine
  | [] => []
  | it :: its => flatItem d it ++ flatItems d its

end

end CochatPlan

namespace CochatPlan

mutual

/-- The tree `buildTree` assembles for a serialized forest before the
`cleanChildren` pass: every node's accumulated children list is written
into it, so every node carries `some` list (possibly empty). -/
def rawNormItem : PlanItem → PlanItem
  | .mk i c s pr ch => .mk i c s pr (some (rawNormKids ch))

def rawNormKids : Option (List PlanItem) → List PlanItem
  | none => []
  | some cs => rawNormItems cs

def rawNormItems : List PlanItem → List PlanItem
  | [] => []
  | it :: its => rawNormItem it :: rawNormItems its

end

mutual

/-- Position-wise equality of `content`, `status` and `priority` with the
children structure (depth and order) preserved; identifiers are ignored and
an absent children field is identified with an empty one. -/
def sameShapeI : PlanItem → PlanItem → Bool
  | .mk _ c1 s1 p1 ch1, .mk _ c2 s2 p2 ch2 =>
    c1 == c2 && s1 == s2 && p1 == p2 && sameShapeK ch1 ch2

def sameShapeK : Option (List PlanItem) → Option (List PlanItem) → Bool
  | none, none => true
  | none, some cs => cs.isEmpty
  | some cs, none => cs.isEmpty
  | some cs1, some cs2 => sameShapeL cs1 cs2

def sameShapeL : List PlanItem → List PlanItem → Bool
  | [], [] => true
  | [], _ :: _ => false
  | _ :: _, [] => false
  | it1 :: its1, it2 :: its2 => sameShapeI it1 it2 && sameShapeL its1 its2

end

mutual

/-- The individual document lines emitted for one item: its own line, then
the lines of its children one indent level deeper. -/
def linesOfItem : PlanItem → Nat → List Str
  | .mk i c s pr ch, d => itemLine (.mk i c s pr ch) d :: linesOfKids ch (d + 1)

def linesOfKids : Option (List PlanItem) → Nat → List Str
  | none, _ => []
  | some cs, d => linesOfItems cs d

def linesOfItems : List PlanItem → Nat → List Str
  | [], _ => []
  | it :: its, d => linesOfItem it d ++ linesOfItems its d

end

end CochatPlan

namespace CochatPlan

-- ---------------------------------------------------------------------------
-- String lemmas for the round trip
-- ---------------------------------------------------------------------------

theorem takeWhile_run (p : Char → Bool) :
    ∀ (a : Str) (y : Char) (b : Str), a.all p = true → p y = false →
      (a ++ y :: b).takeWhile p = a ∧ (a ++ y :: b).dropWhile p = y :: b
  | [], y, b, _, hy => by
    simp [List.takeWhile_cons, List.dropWhile_cons, hy]
  | x :: a, y, b, ha, hy => by
    rw [List.all_cons, Bool.and_eq_true] at ha
    have ih := takeWhile_run p a y b ha.2 hy
    simp [List.takeWhile_cons, List.dropWhile_cons, ha.1, ih.1, ih.2]

theorem dropWhile_append_of_ne_nil (p : Char → Bool) :
    ∀ (a b : Str), a.dropWhile p ≠ [] →
      (a ++ b).dropWhile p = a.dropWhile p ++ b ∧ (a ++ b).takeWhile p = a.takeWhile p
  | [], b, h => absurd rfl h
  | x :: a, b, h => by
    by_cases hx : p x
    · rw [List.dropWhile_cons_of_pos hx] at h
      have ih := dropWhile_append_of_ne_nil p a b h
      simp [List.dropWhile_cons, List.takeWhile_cons, hx, ih.1, ih.2]
    · simp [List.dropWhile_cons, List.takeWhile_cons, hx]

theorem splitOnChar_ne_nil (c : Char) : ∀ s : Str, splitOnChar c s ≠ []
  | [] => by simp [splitOnChar]
  | x :: xs => by
    rw [splitOnChar]
    by_cases hx : x = c
    · simp [hx]
    · simp only [hx, if_false]
      cases h : splitOnChar c xs with
      | nil => simp
      | cons l ls => simp

theorem splitOnChar_append (c : Char) :
    ∀ a b : Str, splitOnChar c (a ++ c :: b) = splitOnChar c a ++ splitOnChar c b
  | [], b => by simp [splitOnChar]
  | x :: xs, b => by
    rw [List.cons_append, splitOnChar, splitOnChar]
    by_cases hx : x = c
    · simp [hx, splitOnChar_append c xs b]
    · simp only [hx, if_false]
      rw [splitOnChar_append c xs b]
      cases h : splitOnChar c xs with
      | nil => exact absurd h (splitOnChar_ne_nil c xs)
      | cons l ls => simp [h]

theorem splitOnChar_no_sep (c : Char) :
    ∀ s : Str, (∀ x ∈ s, x ≠ c) → splitOnChar c s = [s]
  | [], _ => rfl
  | x :: xs, h => by
    rw [splitOnChar]
    have hx : ¬ x = c := h x (by simp)
    simp only [hx, if_false]
    rw [splitOnChar_no_sep c xs (fun y hy => h y (by simp [hy]))]

theorem split_join (c : Char) :
    ∀ L : List Str, L ≠ [] →
      splitOnChar c (joinWith c L) = (L.map (splitOnChar c)).flatten
  | [], h => absurd rfl h
  | [l], _ => by simp [joinWith]
  | l :: l2 :: ls, _ => by
    rw [joinWith, splitOnChar_append, split_join c (l2 :: ls) (by simp)]
    simp

theorem jsRepeat_spaces : ∀ d : Nat, ∀ x ∈ jsRepeat (str "  ") d, x = ' '
  | 0, x, hx => absurd hx (by simp [jsRepeat])
  | d + 1, x, hx => by
    rw [jsRepeat, show str "  " = [' ', ' '] from rfl] at hx
    rcases List.mem_append.1 hx with h | h
    · simp at h
      exact h
    · exact jsRepeat_spaces d x h

theorem jsRepeat_length : ∀ d : Nat, (jsRepeat (str "  ") d).length = 2 * d
  | 0 => rfl
  | d + 1 => by
    rw [jsRepeat, List.length_append, jsRepeat_length d]
    simp [str]
    omega

theorem length_dropWhile_le' (p : Char → Bool) (l : Str) :
    (l.dropWhile p).length ≤ l.length :=
  (List.dropWhile_suffix p).length_le

theorem trimStr_length_le (s : Str) :
    (trimStr s).length ≤ (s.dropWhile isSpaceJS).length := by
  rw [trimStr, List.length_reverse]
  calc ((s.dropWhile isSpaceJS).reverse.dropWhile isSpaceJS).length
      ≤ (s.dropWhile isSpaceJS).reverse.length := length_dropWhile_le' _ _
    _ = (s.dropWhile isSpaceJS).length := List.length_reverse _

theorem trim_head_space {h : Char} {t : Str} (hs : isSpaceJS h = true) :
    trimStr (h :: t) ≠ h :: t := by
  intro hEq
  have h1 : (trimStr (h :: t)).length ≤ t.length := by
    calc (trimStr (h :: t)).length ≤ ((h :: t).dropWhile isSpaceJS).length :=
          trimStr_length_le _
      _ = (t.dropWhile isSpaceJS).length := by rw [List.dropWhile_cons_of_pos hs]
      _ ≤ t.length := length_dropWhile_le' _ _
  rw [hEq] at h1
  simp at h1

theorem trim_trailing_space (u e : Str) (hne : e ≠ []) (hall : e.all isSpaceJS = true) :
    trimStr (u ++ e) ≠ u ++ e := by
  intro hEq
  by_cases hdw : (u ++ e).dropWhile isSpaceJS = []
  · rw [trimStr, hdw] at hEq
    simp at hEq
    exact hne hEq.2
  · -- the last element of the dropWhile result is the last of e, a space
    have hsuf : (u ++ e).dropWhile isSpaceJS <:+ u ++ e := List.dropWhile_suffix _
    obtain ⟨w, hw⟩ := hsuf
    have hlast : ((u ++ e).dropWhile isSpaceJS).getLast? = (u ++ e).getLast? := by
      conv_rhs => rw [← hw]
      exact (List.getLast?_append_of_ne_nil _ hdw).symm
    have hlast2 : (u ++ e).getLast? = e.getLast? := List.getLast?_append_of_ne_nil _ hne
    obtain ⟨x, hx⟩ : ∃ x, e.getLast? = some x := by
      cases he : e.getLast? with
      | none => exact absurd (List.getLast?_eq_none_iff.1 he) hne
      | some x => exact ⟨x, rfl⟩
    have hxs : isSpaceJS x = true := by
      have hxm : x ∈ e := List.mem_of_mem_getLast? hx
      exact (List.all_eq_true.1 hall) x hxm
    -- so the reverse starts with a space, and the second dropWhile shrinks
    have hrev : ((u ++ e).dropWhile isSpaceJS).reverse.head? = some x := by
      rw [List.head?_reverse, hlast, hlast2, hx]
    obtain ⟨r, hr⟩ : ∃ r, ((u ++ e).dropWhile isSpaceJS).reverse = x :: r := by
      cases hc : ((u ++ e).dropWhile isSpaceJS).reverse with
      | nil => rw [hc] at hrev; cases hrev
      | cons y ys =>
        rw [hc] at hrev
        have hy : y = x := by simpa using hrev
        exact ⟨ys, by rw [hy]⟩
    have hlen : (trimStr (u ++ e)).length < ((u ++ e).dropWhile isSpaceJS).length := by
      rw [trimStr, List.length_reverse, hr, List.dropWhile_cons_of_pos hxs]
      have h1 := length_dropWhile_le' isSpaceJS r
      have h2 : ((u ++ e).dropWhile isSpaceJS).length = r.length + 1 := by
        rw [← List.length_reverse ((u ++ e).dropWhile isSpaceJS), hr]
        simp
      omega
    rw [hEq] at hlen
    have := length_dropWhile_le' isSpaceJS (u ++ e)
    omega

end CochatPlan

namespace CochatPlan

theorem infix_append_decomp {x a b : Str} (h : x <:+: a ++ b) :
    x <:+: a ∨ x <:+: b ∨
      ∃ x1 x2, x = x1 ++ x2 ∧ x1 ≠ [] ∧ x2 ≠ [] ∧ x1 <:+ a ∧ x2 <+: b := by
  obtain ⟨s, t, hst⟩ := h
  rcases List.append_eq_append_iff.1 hst with ⟨w, hw, _⟩ | ⟨w, hw, hb⟩
  · -- a = (s ++ x) ++ w: x is an infix of a
    left
    exact ⟨s, w, by rw [hw]⟩
  · -- s ++ x = a ++ w and b = w ++ t
    rcases List.append_eq_append_iff.1 hw with ⟨u, hu, hx⟩ | ⟨u, hu, hx⟩
    · -- a = s ++ u and x = u ++ w, with u a suffix of a and w a prefix of b
      by_cases hunil : u = []
      · right; left
        rw [hunil, List.nil_append] at hx
        exact ⟨[], t, by simp [hb, hx]⟩
      · by_cases hwnil : w = []
        · left
          rw [hwnil, List.append_nil] at hx
          exact ⟨s, [], by rw [List.append_nil, hu, hx]⟩
        · right; right
          exact ⟨u, w, hx, hunil, hwnil, ⟨s, hu.symm⟩, ⟨t, hb.symm⟩⟩
    · -- s = a ++ u and w = u ++ x: x is an infix of b
      right; left
      exact ⟨u, t, by rw [hb, hx, List.append_assoc]⟩

theorem wfContent_unpack {c : Str} (h : wfContent c = true) :
    c ≠ [] ∧ trimStr c = c ∧ (∀ x ∈ c, isDotChar x = true) ∧
      ¬ inProgressTok <:+: c ∧ ¬ cancelledTok <:+: c := by
  rw [wfContent] at h
  simp only [Bool.and_eq_true, Bool.not_eq_true'] at h
  obtain ⟨⟨⟨⟨h1, h2⟩, h3⟩, h4⟩, h5⟩ := h
  refine ⟨by simpa using h1, by simpa using h2, by simpa [List.all_eq_true] using h3, ?_, ?_⟩
  · intro hin
    rw [(jsIncludes_iff c inProgressTok).2 hin] at h4
    cases h4
  · intro hin
    rw [(jsIncludes_iff c cancelledTok).2 hin] at h5
    cases h5

theorem wf_suffix_not_space {c e : Str} (hwf : wfContent c = true)
    (hsub : e <:+ c) (hene : e ≠ []) : e.dropWhile isSpaceJS ≠ [] := by
  intro hnil
  have hall : e.all isSpaceJS = true := by
    rw [List.all_eq_true]
    intro x hx
    exact List.dropWhile_eq_nil_iff.1 hnil x hx
  obtain ⟨u, hu⟩ := hsub
  obtain ⟨_, htrim, _, _, _⟩ := wfContent_unpack hwf
  rw [← hu] at htrim
  exact trim_trailing_space u e hene hall htrim

theorem wf_head_not_space {c : Str} (hwf : wfContent c = true) :
    ∃ hc tc, c = hc :: tc ∧ isSpaceJS hc = false := by
  obtain ⟨hne, htrim, _, _, _⟩ := wfContent_unpack hwf
  cases c with
  | nil => exact absurd rfl hne
  | cons hc tc =>
    refine ⟨hc, tc, rfl, ?_⟩
    by_cases hs : isSpaceJS hc
    · exact absurd htrim (trim_head_space hs)
    · simpa using hs

theorem stripWsLit_fail (tok e sfx c : Str)
    (hsub : e <:+ c) (hene : e ≠ []) (hwf : wfContent c = true)
    (hnotok : ¬ tok <:+: c)
    (hmid : ∀ j, 1 ≤ j → j < tok.length → ¬ (tok.drop j <+: sfx)) :
    stripWsLit tok (e ++ sfx) = none := by
  have hd : e.dropWhile isSpaceJS ≠ [] := wf_suffix_not_space hwf hsub hene
  obtain ⟨hdw, _⟩ := dropWhile_append_of_ne_nil isSpaceJS e sfx hd
  rw [stripWsLit, hdw]
  have hnp : tok.isPrefixOf (e.dropWhile isSpaceJS ++ sfx) = false := by
    rw [Bool.eq_false_iff]
    intro hpre
    have hpre' : tok <+: e.dropWhile isSpaceJS ++ sfx := List.isPrefixOf_iff_prefix.1 hpre
    set d := e.dropWhile isSpaceJS with hd_def
    by_cases hl : tok.length ≤ d.length
    · have h1 : tok <+: d := prefix_of_append_of_length_le hpre' hl
      have h2 : d <:+ e := List.dropWhile_suffix _
      exact hnotok (h1.isInfix.trans (h2.isInfix.trans hsub.isInfix))
    · push_neg at hl
      have htake : tok = (d ++ sfx).take tok.length := List.prefix_iff_eq_take.1 hpre'
      have hdpre : d = tok.take d.length := by
        have : tok.take d.length = ((d ++ sfx).take tok.length).take d.length := by
          rw [← htake]
        rw [List.take_take, min_eq_left (le_of_lt hl),
          List.take_append_of_le_length (le_refl d.length), List.take_length] at this
        exact this.symm
      have hdrop : tok.drop d.length <+: sfx := by
        rw [htake, List.drop_take]
        have : (d ++ sfx).drop d.length = sfx := List.drop_left d sfx
        rw [this]
        exact List.take_prefix _ _
      have hd1 : 1 ≤ d.length := by
        cases hdc : d with
        | nil => exact absurd hdc hd
        | cons a b => simp [hdc]
      exact hmid d.length hd1 hl hdrop
  simp [hnp]

end CochatPlan

namespace CochatPlan

theorem midPrefix_nil (tok : Str) :
    ∀ j, 1 ≤ j → j < tok.length → ¬ (tok.drop j <+: ([] : Str)) := by
  intro j _ hj h
  have := List.prefix_nil.1 h
  rw [List.drop_eq_nil_iff] at this
  omega

theorem midPrefix_in_in :
    ∀ j, j < inProgressTok.length → 1 ≤ j →
      ¬ (inProgressTok.drop j <+: (' ' :: inProgressTok)) := by decide

theorem midPrefix_can_in :
    ∀ j, j < cancelledTok.length → 1 ≤ j →
      ¬ (cancelledTok.drop j <+: (' ' :: inProgressTok)) := by decide

theorem midPrefix_in_can :
    ∀ j, j < inProgressTok.length → 1 ≤ j →
      ¬ (inProgressTok.drop j <+: (' ' :: cancelledTok)) := by decide

theorem midPrefix_can_can :
    ∀ j, j < cancelledTok.length → 1 ≤ j →
      ¬ (cancelledTok.drop j <+: (' ' :: cancelledTok)) := by decide

/-- The shape of serializer status suffixes. -/
def suffixShape (sfx : Str) : Prop :=
  sfx = [] ∨ sfx = ' ' :: inProgressTok ∨ sfx = ' ' :: cancelledTok

theorem annotTailOk_false (e sfx c : Str) (hsub : e <:+ c) (hene : e ≠ [])
    (hwf : wfContent c = true) (hsfx : suffixShape sfx) :
    annotTailOk (e ++ sfx) = false := by
  have hin : stripWsLit inProgressTok (e ++ sfx) = none := by
    refine stripWsLit_fail _ _ _ c hsub hene hwf (wfContent_unpack hwf).2.2.2.1 ?_
    rcases hsfx with rfl | rfl | rfl
    · exact fun j h1 h2 => midPrefix_nil _ j h1 h2
    · exact fun j h1 h2 => midPrefix_in_in j h2 h1
    · exact fun j h1 h2 => midPrefix_in_can j h2 h1
  have hcan : stripWsLit cancelledTok (e ++ sfx) = none := by
    refine stripWsLit_fail _ _ _ c hsub hene hwf (wfContent_unpack hwf).2.2.2.2 ?_
    rcases hsfx with rfl | rfl | rfl
    · exact fun j h1 h2 => midPrefix_nil _ j h1 h2
    · exact fun j h1 h2 => midPrefix_can_in j h2 h1
    · exact fun j h1 h2 => midPrefix_can_can j h2 h1
  rw [annotTailOk, hin, hcan]
  have : (e ++ sfx) ≠ [] := by
    cases e with
    | nil => exact absurd rfl hene
    | cons a b => simp
  simp [this]

theorem annotTailOk_accept {sfx : Str} (hsfx : suffixShape sfx) : annotTailOk sfx = true := by
  rcases hsfx with rfl | rfl | rfl
  · rfl
  · decide
  · decide

theorem findContentFrom_exact :
    ∀ (c2 c1 c sfx : Str), c = c1 ++ c2 → c2 ≠ [] → wfContent c = true →
      suffixShape sfx → findContentFrom c1.reverse (c2 ++ sfx) = some c
  | [], _, _, _, _, h, _, _ => absurd rfl h
  | [x], c1, c, sfx, hc, _, hwf, hsfx => by
    rw [List.cons_append, List.nil_append, findContentFrom]
    have hdot : isDotChar x = true :=
      (wfContent_unpack hwf).2.2.1 x (by rw [hc]; simp)
    rw [hdot, annotTailOk_accept hsfx]
    simp [hc]
  | x :: y :: r, c1, c, sfx, hc, _, hwf, hsfx => by
    rw [List.cons_append, findContentFrom]
    have hdot : isDotChar x = true :=
      (wfContent_unpack hwf).2.2.1 x (by rw [hc]; simp)
    have hsub : (y :: r) <:+ c := ⟨c1 ++ [x], by rw [hc]; simp⟩
    have hfalse : annotTailOk ((y :: r) ++ sfx) = false :=
      annotTailOk_false (y :: r) sfx c hsub (by simp) hwf hsfx
    rw [hdot, hfalse]
    have hrev : x :: c1.reverse = (c1 ++ [x]).reverse := by simp
    rw [hrev,
      findContentFrom_exact (y :: r) (c1 ++ [x]) c sfx (by rw [hc]; simp) (by simp) hwf hsfx]
    simp
  termination_by c2 => c2.length

theorem matchTailFrom_exact (c sfx : Str) (hwf : wfContent c = true)
    (hsfx : suffixShape sfx) :
    matchTailFrom (' ' :: (c ++ sfx))
      (((' ' :: (c ++ sfx)).takeWhile isSpaceJS).length) = some c := by
  obtain ⟨hc, tc, hcc, hhs⟩ := wf_head_not_space hwf
  have htw : (' ' :: (c ++ sfx)).takeWhile isSpaceJS = [' '] := by
    rw [List.takeWhile_cons_of_pos (by decide), hcc, List.cons_append,
      List.takeWhile_cons_of_neg (by simp [hhs])]
  rw [htw]
  show matchTailFrom (' ' :: (c ++ sfx)) (0 + 1) = some c
  rw [matchTailFrom]
  have hfc : findContentFrom [] ((' ' :: (c ++ sfx)).drop (0 + 1)) = some c := by
    have h0 := findContentFrom_exact c [] c sfx (by simp) (wfContent_unpack hwf).1 hwf hsfx
    simpa using h0
  rw [hfc]

end CochatPlan

namespace CochatPlan

/-- The checkbox character the serializer writes for a status. -/
def cbOf (s : PlanItemStatus) : Char := if s = .completed then 'x' else ' '

/-- The status-annotation suffix the serializer appends for a status. -/
def statusSfx (s : PlanItemStatus) : Str :=
  if s = .in_progress then str " *(in progress)*"
  else if s = .cancelled then str " ~~cancelled~~"
  else []

end CochatPlan

namespace CochatPlan

theorem takeWhile_sp_star (X : Str) :
    List.takeWhile isSpaceJS (' ' :: '*' :: '*' :: '[' :: X) = [' '] := by
  rw [List.takeWhile_cons_of_pos (by decide), List.takeWhile_cons_of_neg (by decide)]

theorem dropWhile_sp_star (X : Str) :
    List.dropWhile isSpaceJS (' ' :: '*' :: '*' :: '[' :: X) = '*' :: '*' :: '[' :: X := by
  rw [List.dropWhile_cons_of_pos (by decide), List.dropWhile_cons_of_neg (by decide)]

theorem pre_starbr (X : Str) :
    (str "**[").isPrefixOf ('*' :: '*' :: '[' :: X) = true := by
  rw [List.isPrefixOf_iff_prefix]
  exact ⟨X, rfl⟩

theorem matchPriorityAt_tag (pr : PlanItemPriority) (X : Str) :
    matchPriorityAt (priorityTag pr ++ (']' :: '*' :: '*' :: X)) = some (priorityTag pr, X) := by
  cases pr
  · rw [matchPriorityAt]
    have h1 : (str "HIGH]**").isPrefixOf
        (priorityTag .high ++ (']' :: '*' :: '*' :: X)) = true := by
      rw [List.isPrefixOf_iff_prefix]
      exact ⟨X, rfl⟩
    rw [if_pos h1]
    rfl
  · rw [matchPriorityAt]
    have h1 : (str "HIGH]**").isPrefixOf
        (priorityTag .medium ++ (']' :: '*' :: '*' :: X)) = false := by
      rw [Bool.eq_false_iff]
      intro hc
      obtain ⟨t, ht⟩ := List.isPrefixOf_iff_prefix.1 hc
      rw [show str "HIGH]**" ++ t = 'H' :: (str "IGH]**" ++ t) from rfl,
        show priorityTag PlanItemPriority.medium ++ (']' :: '*' :: '*' :: X) =
          'M' :: (str "ED" ++ (']' :: '*' :: '*' :: X)) from rfl] at ht
      exact absurd (List.head_eq_of_cons_eq ht) (by decide)
    rw [if_neg (by simp [h1])]
    have h2 : (str "MED]**").isPrefixOf
        (priorityTag .medium ++ (']' :: '*' :: '*' :: X)) = true := by
      rw [List.isPrefixOf_iff_prefix]
      exact ⟨X, rfl⟩
    rw [if_pos h2]
    rfl
  · rw [matchPriorityAt]
    have h1 : (str "HIGH]**").isPrefixOf
        (priorityTag .low ++ (']' :: '*' :: '*' :: X)) = false := by
      rw [Bool.eq_false_iff]
      intro hc
      obtain ⟨t, ht⟩ := List.isPrefixOf_iff_prefix.1 hc
      rw [show str "HIGH]**" ++ t = 'H' :: (str "IGH]**" ++ t) from rfl,
        show priorityTag PlanItemPriority.low ++ (']' :: '*' :: '*' :: X) =
          'L' :: (str "OW" ++ (']' :: '*' :: '*' :: X)) from rfl] at ht
      exact absurd (List.head_eq_of_cons_eq ht) (by decide)
    rw [if_neg (by simp [h1])]
    have h2 : (str "MED]**").isPrefixOf
        (priorityTag .low ++ (']' :: '*' :: '*' :: X)) = false := by
      rw [Bool.eq_false_iff]
      intro hc
      obtain ⟨t, ht⟩ := List.isPrefixOf_iff_prefix.1 hc
      rw [show str "MED]**" ++ t = 'M' :: (str "ED]**" ++ t) from rfl,
        show priorityTag PlanItemPriority.low ++ (']' :: '*' :: '*' :: X) =
          'L' :: (str "OW" ++ (']' :: '*' :: '*' :: X)) from rfl] at ht
      exact absurd (List.head_eq_of_cons_eq ht) (by decide)
    rw [if_neg (by simp [h2])]
    have h3 : (str "LOW]**").isPrefixOf
        (priorityTag .low ++ (']' :: '*' :: '*' :: X)) = true := by
      rw [List.isPrefixOf_iff_prefix]
      exact ⟨X, rfl⟩
    rw [if_pos h3]
    rfl

theorem matchItemLine_run (W : Str) (hW : W.all isSpaceJS = true) (cb : Char)
    (hcb : cb = ' ' ∨ cb = 'x') (pr : PlanItemPriority) (rest : Str) :
    matchItemLine (W ++ ('-' :: ' ' :: '[' :: cb :: ']' :: ' ' :: '*' :: '*' :: '[' ::
        (priorityTag pr ++ (']' :: '*' :: '*' :: rest)))) =
      matchAfterPr W cb (priorityTag pr ++ (']' :: '*' :: '*' :: rest)) := by
  obtain ⟨htw, hdw⟩ := takeWhile_run isSpaceJS W '-'
    (' ' :: '[' :: cb :: ']' :: ' ' :: '*' :: '*' :: '[' ::
      (priorityTag pr ++ (']' :: '*' :: '*' :: rest))) hW (by decide)
  rw [matchItemLine, htw, hdw, matchAfterWs]
  have hdrop3 : ('*' :: '*' :: '[' ::
      (priorityTag pr ++ (']' :: '*' :: '*' :: rest))).drop 3 =
      priorityTag pr ++ (']' :: '*' :: '*' :: rest) := rfl
  rcases hcb with rfl | rfl <;>
    rw [if_pos (by decide), matchCheckbox, takeWhile_sp_star, dropWhile_sp_star,
      if_pos ⟨by simp, pre_starbr _⟩, hdrop3]

theorem matchItemLine_serialized (i c : Str) (s : PlanItemStatus) (pr : PlanItemPriority)
    (ch : Option (List PlanItem)) (d : Nat) (hwf : wfContent c = true) :
    matchItemLine (itemLine (.mk i c s pr ch) d) =
      some ⟨jsRepeat (str "  ") d, cbOf s, priorityTag pr, c⟩ := by
  have h0 : itemLine (.mk i c s pr ch) d =
      jsRepeat (str "  ") d ++ ('-' :: ' ' :: '[' :: cbOf s :: ']' :: ' ' :: '*' :: '*' :: '[' ::
        (priorityTag pr ++ (']' :: '*' :: '*' :: (' ' :: (c ++ statusSfx s))))) := by
    cases s <;> cases pr <;> simp only [itemLine, List.append_assoc] <;> rfl
  have hW : (jsRepeat (str "  ") d).all isSpaceJS = true := by
    rw [List.all_eq_true]
    intro x hx
    rw [jsRepeat_spaces d x hx]
    rfl
  have hcb : cbOf s = ' ' ∨ cbOf s = 'x' := by
    cases s <;> simp [cbOf]
  have hsfx : suffixShape (statusSfx s) := by
    cases s
    · exact Or.inl rfl
    · exact Or.inr (Or.inl rfl)
    · exact Or.inl rfl
    · exact Or.inr (Or.inr rfl)
  rw [h0, matchItemLine_run _ hW _ hcb pr (' ' :: (c ++ statusSfx s)), matchAfterPr,
    matchPriorityAt_tag]
  show (match matchTailFrom (' ' :: (c ++ statusSfx s))
      ((List.takeWhile isSpaceJS (' ' :: (c ++ statusSfx s))).length) with
    | some content =>
      some (ItemMatch.mk (jsRepeat (str "  ") d) (cbOf s) (priorityTag pr) content)
    | none => (none : Option ItemMatch)) =
    some (ItemMatch.mk (jsRepeat (str "  ") d) (cbOf s) (priorityTag pr) c)
  rw [matchTailFrom_exact c (statusSfx s) hwf hsfx]

end CochatPlan

namespace CochatPlan

/-- Everything on a serialized item line before the content: indentation,
list marker, checkbox, and priority label, ending in the space before the
content. -/
def linePre (W : Str) (cb : Char) (pr : PlanItemPriority) : Str :=
  W ++ ('-' :: ' ' :: '[' :: cb :: ']' :: ' ' :: '*' :: '*' :: '[' ::
    (priorityTag pr ++ [']', '*', '*', ' ']))

theorem itemLine_linePre (i c : Str) (s : PlanItemStatus) (pr : PlanItemPriority)
    (ch : Option (List PlanItem)) (d : Nat) :
    itemLine (.mk i c s pr ch) d =
      linePre (jsRepeat (str "  ") d) (cbOf s) pr ++ (c ++ statusSfx s) := by
  have h1 : linePre (jsRepeat (str "  ") d) (cbOf s) pr ++ (c ++ statusSfx s) =
      jsRepeat (str "  ") d ++ ('-' :: ' ' :: '[' :: cbOf s :: ']' :: ' ' :: '*' :: '*' :: '[' ::
        (priorityTag pr ++ (']' :: '*' :: '*' :: (' ' :: (c ++ statusSfx s))))) := by
    simp [linePre, List.append_assoc]
  rw [h1]
  cases s <;> cases pr <;> simp only [itemLine, List.append_assoc] <;> rfl

theorem linePre_chars (W : Str) (hW : ∀ x ∈ W, x = ' ') (cb : Char)
    (hcb : cb = ' ' ∨ cb = 'x') (pr : PlanItemPriority) :
    ∀ x ∈ linePre W cb pr, x ≠ '~' ∧ x ≠ '(' := by
  intro x hx
  rcases List.mem_append.1 hx with h | h
  · rw [hW x h]
    exact ⟨by decide, by decide⟩
  · refine ⟨fun heq => ?_, fun heq => ?_⟩ <;> subst heq <;>
      rcases hcb with rfl | rfl <;> cases pr <;> revert h <;> decide

theorem linePre_last (W : Str) (cb : Char) (pr : PlanItemPriority) :
    (linePre W cb pr).getLast? = some ' ' := by
  rw [linePre, List.getLast?_append_of_ne_nil _ (by simp)]
  cases pr
  · show ('-' :: ' ' :: '[' :: cb :: ']' :: ' ' :: '*' :: '*' :: '[' ::
      'H' :: 'I' :: 'G' :: 'H' :: ']' :: '*' :: '*' :: [' ']).getLast? = some ' '
    simp [List.getLast?_cons_cons]
  · show ('-' :: ' ' :: '[' :: cb :: ']' :: ' ' :: '*' :: '*' :: '[' ::
      'M' :: 'E' :: 'D' :: ']' :: '*' :: '*' :: [' ']).getLast? = some ' '
    simp [List.getLast?_cons_cons]
  · show ('-' :: ' ' :: '[' :: cb :: ']' :: ' ' :: '*' :: '*' :: '[' ::
      'L' :: 'O' :: 'W' :: ']' :: '*' :: '*' :: [' ']).getLast? = some ' '
    simp [List.getLast?_cons_cons]

theorem canc_not_infix (W : Str) (hW : ∀ x ∈ W, x = ' ') (cb : Char)
    (hcb : cb = ' ' ∨ cb = 'x') (pr : PlanItemPriority) (c sfx : Str)
    (hwf : wfContent c = true) (hsfx : sfx = [] ∨ sfx = ' ' :: inProgressTok) :
    ¬ cancelledTok <:+: (linePre W cb pr ++ (c ++ sfx)) := by
  intro hinf
  rcases infix_append_decomp hinf with h | h | ⟨x1, x2, hx, hx1ne, hx2ne, hx1, hx2⟩
  · -- '~' would be a character of linePre
    have : '~' ∈ linePre W cb pr := h.subset (by decide)
    exact (linePre_chars W hW cb hcb pr '~' this).1 rfl
  · rcases infix_append_decomp h with h2 | h2 | ⟨y1, y2, hy, hy1ne, hy2ne, hy1, hy2⟩
    · exact (wfContent_unpack hwf).2.2.2.2 h2
    · rcases hsfx with rfl | rfl
      · rw [List.infix_nil] at h2
        exact (by decide : cancelledTok ≠ []) h2
      · -- decide: the cancelled token is not inside " *(in progress)*"
        have : cancelledTok <:+: (' ' :: inProgressTok) := h2
        revert this
        decide
    · -- spanning the content/suffix boundary
      have hy2eq : y2 = cancelledTok.drop y1.length := by
        have h3 := congrArg (List.drop y1.length) hy
        rw [List.drop_left] at h3
        exact h3.symm
      have hlen1 : 1 ≤ y1.length := by
        cases y1 with
        | nil => exact absurd rfl hy1ne
        | cons a b => simp
      have hlen2 : y1.length < cancelledTok.length := by
        have h4 := congrArg List.length hy
        rw [List.length_append] at h4
        cases y2 with
        | nil => exact absurd rfl hy2ne
        | cons a2 b2 =>
          simp at h4
          omega
      rcases hsfx with rfl | rfl
      · rw [List.prefix_nil] at hy2
        exact hy2ne hy2
      · exact midPrefix_can_in y1.length hlen2 hlen1 (hy2eq ▸ hy2)
  · -- spanning the linePre boundary: x1 is a non-empty prefix of the token
    have hx1head : x1.head? = some '~' := by
      cases x1 with
      | nil => exact absurd rfl hx1ne
      | cons a b =>
        have : cancelledTok.head? = some a := by rw [hx]; rfl
        have ha : a = '~' := by
          have h2 : some '~' = some a := by rw [← this]; rfl
          exact (Option.some.inj h2).symm
        rw [ha]
        rfl
    have : '~' ∈ linePre W cb pr :=
      hx1.subset (List.mem_of_mem_head? (by rw [hx1head]; rfl))
    exact (linePre_chars W hW cb hcb pr '~' this).1 rfl

end CochatPlan

namespace CochatPlan

theorem inProg_not_infix (W : Str) (hW : ∀ x ∈ W, x = ' ') (cb : Char)
    (hcb : cb = ' ' ∨ cb = 'x') (pr : PlanItemPriority) (c : Str)
    (hwf : wfContent c = true) :
    ¬ inProgressTok <:+: (linePre W cb pr ++ c) := by
  intro hinf
  rcases infix_append_decomp hinf with h | h | ⟨x1, x2, hx, hx1ne, hx2ne, hx1, hx2⟩
  · have : '(' ∈ linePre W cb pr := h.subset (by decide)
    exact (linePre_chars W hW cb hcb pr '(' this).2 rfl
  · exact (wfContent_unpack hwf).2.2.2.1 h
  · cases x1 with
    | nil => exact absurd rfl hx1ne
    | cons a b =>
      have ha : a = '*' := by
        have h2 : inProgressTok.head? = some a := by rw [hx]; rfl
        have h3 : some '*' = some a := by rw [← h2]; rfl
        exact (Option.some.inj h3).symm
      cases b with
      | nil =>
        subst ha
        obtain ⟨u, hu⟩ := hx1
        have hlast : (linePre W cb pr).getLast? = some '*' := by
          rw [← hu, List.getLast?_append_of_ne_nil _ (by simp)]
          rfl
        rw [linePre_last] at hlast
        exact absurd (Option.some.inj hlast) (by decide)
      | cons a2 b2 =>
        have ha2 : a2 = '(' := by
          have h2 : inProgressTok.tail.head? = some a2 := by rw [hx]; rfl
          have h3 : some '(' = some a2 := by rw [← h2]; rfl
          exact (Option.some.inj h3).symm
        have hmem : '(' ∈ (a :: a2 :: b2) := by simp [ha2]
        have : '(' ∈ linePre W cb pr := hx1.subset hmem
        exact (linePre_chars W hW cb hcb pr '(' this).2 rfl

theorem tok_occurs_at_end (tok A c : Str) :
    tok <:+: (A ++ (c ++ (' ' :: tok))) :=
  ⟨A ++ (c ++ [' ']), [], by simp⟩

/-- On an exactly serialized item line, `parseStatus` recovers the status
that was serialized: the annotation suffixes are recognized, the prefix
before the content contains no annotation characters, and well-formed
content contains no annotation token. -/
theorem parseStatus_serialized (W : Str) (hW : ∀ x ∈ W, x = ' ')
    (pr : PlanItemPriority) (c : Str) (hwf : wfContent c = true)
    (s : PlanItemStatus) :
    parseStatus [cbOf s] (linePre W (cbOf s) pr ++ (c ++ statusSfx s)) = s := by
  have hcb : cbOf s = ' ' ∨ cbOf s = 'x' := by cases s <;> simp [cbOf]
  cases s
  · -- pending
    have hc := canc_not_infix W hW _ hcb pr c [] hwf (Or.inl rfl)
    have hi := inProg_not_infix W hW _ hcb pr c hwf
    rw [List.append_nil] at hc
    have hc' : jsIncludes (linePre W (cbOf .pending) pr ++ c) cancelledTok = false :=
      Bool.eq_false_iff.2 fun h => hc ((jsIncludes_iff _ _).1 h)
    have hi' : jsIncludes (linePre W (cbOf .pending) pr ++ c) inProgressTok = false :=
      Bool.eq_false_iff.2 fun h => hi ((jsIncludes_iff _ _).1 h)
    show parseStatus [cbOf .pending] (linePre W (cbOf .pending) pr ++ (c ++ [])) = .pending
    rw [List.append_nil, parseStatus, hc', hi']
    decide
  · -- in_progress
    have hc := canc_not_infix W hW _ hcb pr c (' ' :: inProgressTok) hwf (Or.inr rfl)
    have hc' : jsIncludes (linePre W (cbOf .in_progress) pr ++ (c ++ (' ' :: inProgressTok)))
        cancelledTok = false :=
      Bool.eq_false_iff.2 fun h => hc ((jsIncludes_iff _ _).1 h)
    have hi' : jsIncludes (linePre W (cbOf .in_progress) pr ++ (c ++ (' ' :: inProgressTok)))
        inProgressTok = true :=
      (jsIncludes_iff _ _).2 (tok_occurs_at_end _ _ _)
    show parseStatus [cbOf .in_progress]
      (linePre W (cbOf .in_progress) pr ++ (c ++ (' ' :: inProgressTok))) = .in_progress
    rw [parseStatus, hc', hi']
    rfl
  · -- completed
    have hc := canc_not_infix W hW _ hcb pr c [] hwf (Or.inl rfl)
    have hi := inProg_not_infix W hW _ hcb pr c hwf
    rw [List.append_nil] at hc
    have hc' : jsIncludes (linePre W (cbOf .completed) pr ++ c) cancelledTok = false :=
      Bool.eq_false_iff.2 fun h => hc ((jsIncludes_iff _ _).1 h)
    have hi' : jsIncludes (linePre W (cbOf .completed) pr ++ c) inProgressTok = false :=
      Bool.eq_false_iff.2 fun h => hi ((jsIncludes_iff _ _).1 h)
    show parseStatus [cbOf .completed] (linePre W (cbOf .completed) pr ++ (c ++ [])) = .completed
    rw [List.append_nil, parseStatus, hc', hi']
    decide
  · -- cancelled
    have hc' : jsIncludes (linePre W (cbOf .cancelled) pr ++ (c ++ (' ' :: cancelledTok)))
        cancelledTok = true :=
      (jsIncludes_iff _ _).2 (tok_occurs_at_end _ _ _)
    show parseStatus [cbOf .cancelled]
      (linePre W (cbOf .cancelled) pr ++ (c ++ (' ' :: cancelledTok))) = .cancelled
    rw [parseStatus, hc']
    rfl

theorem parsePriority_tag (pr : PlanItemPriority) :
    parsePriority (priorityTag pr) = pr := by
  cases pr <;> rfl

end CochatPlan

namespace CochatPlan

theorem collectItems_skip (f : Nat → Str) (l : Str) (ls : List Str) (n : Nat)
    (h : matchItemLine l = none) :
    collectItems f (l :: ls) n = collectItems f ls n := by
  rw [collectItems, h]

theorem collectItems_match (f : Nat → Str) (l : Str) (ls : List Str) (n : Nat)
    (m : ItemMatch) (h : matchItemLine l = some m) :
    collectItems f (l :: ls) n =
      { indent := mkRat m.ws.length 2,
        item := .mk (f n) (trimStr m.content) (parseStatus [m.checkbox] l)
                    (parsePriority m.priority) none } :: collectItems f ls (n + 1) := by
  rw [collectItems, h]

theorem mkRat_two_mul (d : Nat) : mkRat ((2 * d : ℕ) : ℤ) 2 = (d : ℚ) := by
  rw [Rat.mkRat_eq_div]
  push_cast
  ring

/-- A serialized item line contributes exactly its source fields to the
collected list: indent is the nesting depth, content, status, and priority
are the item's own, and the id is the next fresh one. -/
theorem collectItems_itemLine (f : Nat → Str) (i c : Str) (s : PlanItemStatus)
    (pr : PlanItemPriority) (ch : Option (List PlanItem)) (d : Nat)
    (ls : List Str) (n : Nat) (hwf : wfContent c = true) :
    collectItems f (itemLine (.mk i c s pr ch) d :: ls) n =
      ⟨(d : ℚ), .mk (f n) c s pr none⟩ :: collectItems f ls (n + 1) := by
  have h3 : parseStatus [cbOf s] (itemLine (.mk i c s pr ch) d) = s := by
    rw [itemLine_linePre]
    exact parseStatus_serialized _ (jsRepeat_spaces d) pr c hwf s
  rw [collectItems_match f _ ls n _ (matchItemLine_serialized i c s pr ch d hwf)]
  dsimp only
  rw [jsRepeat_length, mkRat_two_mul, (wfContent_unpack hwf).2.1, h3, parsePriority_tag]

end CochatPlan

namespace CochatPlan

theorem linePre_no_nl (W : Str) (hW : ∀ x ∈ W, x = ' ') (cb : Char)
    (hcb : cb = ' ' ∨ cb = 'x') (pr : PlanItemPriority) :
    ∀ x ∈ linePre W cb pr, x ≠ '\n' := by
  intro x hx
  rcases List.mem_append.1 hx with h | h
  · rw [hW x h]
    decide
  · rintro rfl
    rcases hcb with rfl | rfl <;> cases pr <;> revert h <;> decide

theorem statusSfx_no_nl (s : PlanItemStatus) : ∀ x ∈ statusSfx s, x ≠ '\n' := by
  cases s <;> decide

theorem isDotChar_ne_nl {x : Char} (h : isDotChar x = true) : x ≠ '\n' := by
  rintro rfl
  exact absurd h (by decide)

theorem itemLine_no_nl (i c : Str) (s : PlanItemStatus) (pr : PlanItemPriority)
    (ch : Option (List PlanItem)) (d : Nat) (hwf : wfContent c = true) :
    ∀ x ∈ itemLine (.mk i c s pr ch) d, x ≠ '\n' := by
  intro x hx
  rw [itemLine_linePre] at hx
  have hcb : cbOf s = ' ' ∨ cbOf s = 'x' := by cases s <;> simp [cbOf]
  rcases List.mem_append.1 hx with h | h
  · exact linePre_no_nl _ (jsRepeat_spaces d) _ hcb pr x h
  · rcases List.mem_append.1 h with h2 | h2
    · exact isDotChar_ne_nl ((wfContent_unpack hwf).2.2.1 x h2)
    · exact statusSfx_no_nl s x h2

theorem itemLine_ne_nil (i c : Str) (s : PlanItemStatus) (pr : PlanItemPriority)
    (ch : Option (List PlanItem)) (d : Nat) :
    itemLine (.mk i c s pr ch) d ≠ [] := by
  rw [itemLine_linePre]
  simp [linePre]

theorem formatItem_ne_nil (it : PlanItem) (d : Nat) : formatItem it d ≠ [] := by
  cases it with
  | mk i c s p ch =>
    rw [formatItem]
    split
    · exact itemLine_ne_nil i c s p ch d
    · simp [itemLine_linePre, linePre]

theorem joinWith_cons_ne_nil (c : Char) (a : Str) (l : List Str) (ha : a ≠ []) :
    joinWith c (a :: l) ≠ [] := by
  cases l with
  | nil => simpa [joinWith] using ha
  | cons b bs =>
    rw [joinWith]
    simp

mutual

/-- Splitting one formatted item back on newlines recovers exactly its
per-item document lines. -/
theorem splitFormatItem : ∀ it : PlanItem, ∀ d : Nat, wfItem it = true →
    splitOnChar '\n' (formatItem it d) = linesOfItem it d
  | .mk i c s p ch, d, h => by
    rw [wfItem, Bool.and_eq_true] at h
    rw [formatItem, linesOfItem]
    cases ch with
    | none =>
      rw [formatChildList, joinWith, if_pos rfl, linesOfKids]
      rw [splitOnChar_no_sep '\n' _ (itemLine_no_nl i c s p none d h.1)]
    | some cs =>
      cases cs with
      | nil =>
        rw [formatChildList, formatItems, joinWith, if_pos rfl, linesOfKids, linesOfItems]
        rw [splitOnChar_no_sep '\n' _ (itemLine_no_nl i c s p (some []) d h.1)]
      | cons x xs =>
        have hkids : wfItems (x :: xs) = true := by
          rw [wfKids] at h
          exact h.2
        have hne : joinWith '\n' (formatChildList (some (x :: xs)) (d + 1)) ≠ [] := by
          rw [formatChildList, formatItems]
          exact joinWith_cons_ne_nil '\n' _ _ (formatItem_ne_nil x (d + 1))
        rw [if_neg hne, splitOnChar_append,
          splitOnChar_no_sep '\n' _ (itemLine_no_nl i c s p (some (x :: xs)) d h.1)]
        rw [formatChildList, split_join '\n' _ (by rw [formatItems]; simp),
          splitFormatItems (x :: xs) (d + 1) hkids, linesOfKids, List.singleton_append]

theorem splitFormatItems : ∀ cs : List PlanItem, ∀ d : Nat, wfItems cs = true →
    ((formatItems cs d).map (splitOnChar '\n')).flatten = linesOfItems cs d
  | [], _, _ => rfl
  | it :: its, d, h => by
    rw [wfItems, Bool.and_eq_true] at h
    rw [formatItems, linesOfItems, List.map_cons, List.flatten_cons,
      splitFormatItem it d h.1, splitFormatItems its d h.2]

end

end CochatPlan

namespace CochatPlan

theorem popGEGo_stop (ind : ℚ) (top : Frame) (h : ¬ ind ≤ top.indent) :
    ∀ rest, popGEGo ind top rest = top :: rest
  | [] => by rw [popGEGo]
  | next :: rest => by rw [popGEGo, if_neg h]

theorem popGEGo_popGE (e e' : ℚ) (h : e ≤ e') :
    ∀ (rest : List Frame) (top : Frame),
      popGE e (popGEGo e' top rest) = popGEGo e top rest
  | [], top => by rw [popGEGo, popGE]
  | next :: rest, top => by
    rw [popGEGo]
    by_cases hc : e' ≤ top.indent
    · rw [if_pos hc, popGEGo_popGE e e' h rest _, popGEGo, if_pos (le_trans h hc)]
    · rw [if_neg hc, popGE]

/-- Popping to a lower level factors through popping to a higher one. -/
theorem popGE_popGE (e e' : ℚ) (h : e ≤ e') :
    ∀ st : List Frame, popGE e (popGE e' st) = popGE e st
  | [] => rfl
  | top :: rest => popGEGo_popGE e e' h rest top

theorem attachLast_append (A : List PlanItem) (it : PlanItem) (cs : List PlanItem) :
    attachLast (A ++ [it]) cs = A ++ [it.withKids (some cs)] := by
  induction A with
  | nil => rfl
  | cons a A ih =>
    cases A with
    | nil => rfl
    | cons b B =>
      rw [List.cons_append] at ih ⊢
      rw [List.cons_append] at ih ⊢
      rw [attachLast, ih, List.cons_append, List.cons_append]

mutual

/-- Folding the scanner lines of one serialized item into the stack and
popping back to its level appends exactly the raw (un-cleaned) tree of
that item to the parent frame. -/
theorem popFoldItem : ∀ (it : PlanItem) (d : ℚ) (st : List Frame) (top : Frame)
    (rest : List Frame), popGE d st = top :: rest → top.indent < d →
    ∀ e, top.indent < e → e ≤ d →
    popGE e (List.foldl pushItem st (flatItem d it)) =
      ⟨top.indent, top.items ++ [rawNormItem it]⟩ :: rest
  | .mk i c s0 pr ch, d, st, top, rest, hpop, hlt, e, he1, he2 => by
    rw [flatItem, List.foldl_cons]
    have hpush : pushItem st ⟨d, .mk i c s0 pr none⟩ =
        ⟨d, []⟩ :: ⟨top.indent, top.items ++ [PlanItem.mk i c s0 pr (some [])]⟩ :: rest := by
      rw [pushItem]
      dsimp only
      rw [hpop]
      rfl
    rw [hpush]
    have hkids := popFoldKids ch (d + 1)
      (⟨d, []⟩ :: ⟨top.indent, top.items ++ [PlanItem.mk i c s0 pr (some [])]⟩ :: rest)
      ⟨d, []⟩ (⟨top.indent, top.items ++ [PlanItem.mk i c s0 pr (some [])]⟩ :: rest)
      (by
        rw [popGE, popGEGo, if_neg (by show ¬ d + 1 ≤ d; linarith)])
      (by show d < d + 1; linarith)
      (d + 1) (by show d < d + 1; linarith) le_rfl
    have hd : popGE d (List.foldl pushItem
        (⟨d, []⟩ :: ⟨top.indent, top.items ++ [PlanItem.mk i c s0 pr (some [])]⟩ :: rest)
        (flatKids (d + 1) ch)) =
        ⟨top.indent, top.items ++ [rawNormItem (.mk i c s0 pr ch)]⟩ :: rest := by
      rw [← popGE_popGE d (d + 1) (by linarith) _, hkids, popGE, popGEGo,
        if_pos (by show d ≤ d; exact le_rfl)]
      dsimp only
      rw [List.nil_append, attachLast_append]
      rw [popGEGo_stop d _ (by show ¬ d ≤ top.indent; linarith)]
      rfl
    rw [← popGE_popGE e d he2 _, hd, popGE, popGEGo_stop e _ (by linarith)]

theorem popFoldKids : ∀ (ch : Option (List PlanItem)) (d : ℚ) (st : List Frame)
    (top : Frame) (rest : List Frame), popGE d st = top :: rest → top.indent < d →
    ∀ e, top.indent < e → e ≤ d →
    popGE e (List.foldl pushItem st (flatKids d ch)) =
      ⟨top.indent, top.items ++ rawNormKids ch⟩ :: rest
  | none, d, st, top, rest, hpop, hlt, e, he1, he2 => by
    rw [flatKids, List.foldl_nil, rawNormKids, List.append_nil,
      ← popGE_popGE e d he2 st, hpop, popGE, popGEGo_stop e _ (by linarith)]
  | some cs, d, st, top, rest, hpop, hlt, e, he1, he2 => by
    rw [flatKids, rawNormKids]
    exact popFoldItems cs d st top rest hpop hlt e he1 he2

theorem popFoldItems : ∀ (cs : List PlanItem) (d : ℚ) (st : List Frame)
    (top : Frame) (rest : List Frame), popGE d st = top :: rest → top.indent < d →
    ∀ e, top.indent < e → e ≤ d →
    popGE e (List.foldl pushItem st (flatItems d cs)) =
      ⟨top.indent, top.items ++ rawNormItems cs⟩ :: rest
  | [], d, st, top, rest, hpop, hlt, e, he1, he2 => by
    rw [flatItems, List.foldl_nil, rawNormItems, List.append_nil,
      ← popGE_popGE e d he2 st, hpop, popGE, popGEGo_stop e _ (by linarith)]
  | it :: its, d, st, top, rest, hpop, hlt, e, he1, he2 => by
    rw [flatItems, List.foldl_append]
    have h1 := popFoldItem it d st top rest hpop hlt d hlt le_rfl
    have h2 := popFoldItems its d (List.foldl pushItem st (flatItem d it))
      ⟨top.indent, top.items ++ [rawNormItem it]⟩ rest h1 hlt e he1 he2
    rw [h2, rawNormItems, List.append_assoc, List.singleton_append]

end

theorem closeAllGo_singleton (e : ℚ) : ∀ (rest : List Frame) (top F : Frame),
    popGEGo e top rest = [F] → closeAllGo top rest = F
  | [], top, F, h => by
    rw [popGEGo] at h
    rw [closeAllGo]
    exact (List.cons.inj h).1
  | next :: rest, top, F, h => by
    rw [popGEGo] at h
    by_cases hc : e ≤ top.indent
    · rw [if_pos hc] at h
      rw [closeAllGo]
      exact closeAllGo_singleton e rest _ F h
    · rw [if_neg hc] at h
      exact absurd (List.cons.inj h).2 (by simp)

/-- `buildTree` on the scanner output of a serialized forest rebuilds
exactly the original forest shape: the raw tree with every accumulated
children list written in, then cleaned of empty children lists. -/
theorem buildTree_flatItems (G : List PlanItem) :
    buildTree (flatItems 0 G) = cleanItems (rawNormItems G) := by
  have h := popFoldItems G 0 [⟨-1, []⟩] ⟨-1, []⟩ []
    (by rw [popGE, popGEGo])
    (by show (-1 : ℚ) < 0; norm_num) 0 (by show (-1 : ℚ) < 0; norm_num) le_rfl
  rw [buildTree]
  cases hf : List.foldl pushItem [⟨-1, []⟩] (flatItems 0 G) with
  | nil =>
    rw [hf, popGE] at h
    cases h
  | cons ftop frest =>
    rw [hf, popGE] at h
    have hclose := closeAllGo_singleton 0 frest ftop _ h
    show cleanItems (closeAllGo ftop frest).items = cleanItems (rawNormItems G)
    rw [hclose]
    rfl

end CochatPlan

namespace CochatPlan

mutual

/-- Cleaning the raw tree of a relabelled item matches the original item's
shape: identical content, status, priority, and children structure. -/
theorem shapeCRRI : ∀ (it : PlanItem) (f : Nat → Str) (n : Nat),
    sameShapeI (cleanItem (rawNormItem (relabelItem f n it).1)) it = true
  | .mk i c s0 pr ch, f, n => by
    rw [relabelItem]
    dsimp only
    rw [rawNormItem, cleanItem, sameShapeI]
    simp only [beq_self_eq_true, Bool.true_and]
    exact shapeCRRK ch f (n + 1)

theorem shapeCRRK : ∀ (ch : Option (List PlanItem)) (f : Nat → Str) (n : Nat),
    sameShapeK (cleanKids (some (rawNormKids (relabelKids f n ch).1))) ch = true
  | none, _, _ => by
    rw [relabelKids]
    dsimp only
    rw [rawNormKids, cleanKids, sameShapeK]
  | some cs, f, n => by
    rw [relabelKids]
    dsimp only
    rw [rawNormKids]
    cases cs with
    | nil =>
      rw [relabelItems]
      dsimp only
      rw [rawNormItems, cleanKids, sameShapeK]
      rfl
    | cons x xs =>
      rw [relabelItems]
      dsimp only
      rw [rawNormItems, cleanKids, sameShapeK]
      have := shapeCRRL (x :: xs) f n
      rw [relabelItems] at this
      dsimp only at this
      rw [rawNormItems] at this
      exact this

theorem shapeCRRL : ∀ (cs : List PlanItem) (f : Nat → Str) (n : Nat),
    sameShapeL (cleanItems (rawNormItems (relabelItems f n cs).1)) cs = true
  | [], _, _ => rfl
  | x :: xs, f, n => by
    rw [relabelItems]
    dsimp only
    rw [rawNormItems, cleanItems, sameShapeL, Bool.and_eq_true]
    exact ⟨shapeCRRI x f n, shapeCRRL xs f (relabelItem f n x).2⟩

end

theorem mem_ne_of_not_contains {l : Str} {a : Char} (h : l.contains a = false) :
    ∀ x ∈ l, x ≠ a := by
  intro x hx
  rintro rfl
  simp [List.contains_eq_any_beq] at h
  exact h hx

theorem wfPlan_unpack {p : Plan} (h : wfPlan p = true) :
    (∀ x ∈ p.title, x ≠ '\n') ∧ trimStr p.title = p.title ∧
    (∀ x ∈ p.metadata.source, x ≠ '\n') ∧ (∀ x ∈ p.metadata.updatedAt, x ≠ '\n') ∧
    wfDescription p.description = true ∧ wfItems p.items = true := by
  rw [wfPlan] at h
  simp only [Bool.and_eq_true, Bool.not_eq_true'] at h
  obtain ⟨⟨⟨⟨⟨h1, h2⟩, h3⟩, h4⟩, h5⟩, h6⟩ := h
  exact ⟨mem_ne_of_not_contains h1, by simpa using h2, mem_ne_of_not_contains h3,
    mem_ne_of_not_contains h4, h5, h6⟩

/-- The metadata line of a serialized plan. -/
def metaLn (p : Plan) : Str :=
  str "> Shared from " ++ p.metadata.source ++ str " | Updated: " ++ p.metadata.updatedAt

/-- The individual document lines of the description block. -/
def descLinesOf (p : Plan) : List Str :=
  match p.description with
  | some d => if d = [] then [] else [str "## Overview", []] ++ splitOnChar '\n' d ++ [[]]
  | none => []

/-- Splitting a serialized plan back on newlines yields the explicit list
of document lines: marker, title, blank, metadata, blank, description
block, tasks heading, blank, the per-item lines, blank, rule, footer. -/
theorem splitPlanLines (p : Plan) (h : wfPlan p = true) :
    splitOnChar '\n' (planToMarkdown p) =
      [PLAN_MARKER, str "# Plan: " ++ p.title, [], metaLn p, []] ++ descLinesOf p ++
      [str "## Tasks", []] ++ linesOfItems p.items 0 ++ [[], str "---", planFooter] := by
  obtain ⟨ht, _, hsrc, hupd, hdesc, hitems⟩ := wfPlan_unpack h
  rw [planToMarkdown, split_join '\n' _ (by rw [planLines]; simp), planLines]
  simp only [List.map_append, List.flatten_append, List.map_cons, List.map_nil,
    List.flatten_cons, List.flatten_nil]
  have hmk : splitOnChar '\n' PLAN_MARKER = [PLAN_MARKER] := rfl
  have htitle : splitOnChar '\n' (str "# Plan: " ++ p.title) = [str "# Plan: " ++ p.title] := by
    apply splitOnChar_no_sep
    intro x hx
    rcases List.mem_append.1 hx with h2 | h2
    · rintro rfl
      revert h2
      decide
    · exact ht x h2
  have hmeta : splitOnChar '\n' (str "> Shared from " ++ p.metadata.source ++
      str " | Updated: " ++ p.metadata.updatedAt) =
      [str "> Shared from " ++ p.metadata.source ++ str " | Updated: " ++ p.metadata.updatedAt] := by
    apply splitOnChar_no_sep
    intro x hx
    rcases List.mem_append.1 hx with h2 | h2
    · rcases List.mem_append.1 h2 with h3 | h3
      · rcases List.mem_append.1 h3 with h4 | h4
        · rintro rfl
          revert h4
          decide
        · exact hsrc x h4
      · rintro rfl
        revert h3
        decide
    · exact hupd x h2
  have hfoot : splitOnChar '\n' planFooter = [planFooter] := rfl
  have hdash : splitOnChar '\n' (str "---") = [str "---"] := rfl
  have htasks : splitOnChar '\n' (str "## Tasks") = [str "## Tasks"] := rfl
  have hempty : splitOnChar '\n' ([] : Str) = [([] : Str)] := rfl
  have hitemsL := splitFormatItems p.items 0 hitems
  rw [hmk, htitle, hmeta, hfoot, hdash, htasks, hempty, hitemsL, metaLn, descLinesOf]
  cases hd : p.description with
  | none =>
    simp
  | some d =>
    dsimp only
    by_cases hde : d = []
    · subst hde
      simp
    · rw [if_neg hde, if_neg hde]
      simp [hempty, show splitOnChar '\n' (str "## Overview") = [str "## Overview"] from rfl]

end CochatPlan

namespace CochatPlan

/-- The full line list of a serialized plan document. -/
def docLines (p : Plan) : List Str :=
  [PLAN_MARKER, str "# Plan: " ++ p.title, [], metaLn p, []] ++ descLinesOf p ++
  [str "## Tasks", []] ++ linesOfItems p.items 0 ++ [[], str "---", planFooter]

theorem splitPlanToMarkdown (p : Plan) (h : wfPlan p = true) :
    splitOnChar '\n' (planToMarkdown p) = docLines p := by
  rw [docLines]
  exact splitPlanLines p h

theorem ne_of_head {l1 l2 : Str} (h : l1.head? ≠ l2.head?) : l1 ≠ l2 :=
  fun he => h (he ▸ rfl)

theorem isPrefixOf_cons_cons_false (a b : Char) (h : a ≠ b) (xs ys : Str) :
    List.isPrefixOf (a :: xs) (b :: ys) = false := by
  rw [Bool.eq_false_iff]
  intro hp
  rw [List.isPrefixOf_iff_prefix] at hp
  obtain ⟨t, ht⟩ := hp
  rw [List.cons_append] at ht
  exact h (List.cons.inj ht).1

theorem isPrefixOf_cons2_false (a b b' : Char) (h : b ≠ b') (xs ys : Str) :
    List.isPrefixOf (a :: b :: xs) (a :: b' :: ys) = false := by
  rw [Bool.eq_false_iff]
  intro hp
  rw [List.isPrefixOf_iff_prefix] at hp
  obtain ⟨t, ht⟩ := hp
  rw [List.cons_append, List.cons_append] at ht
  exact h (List.cons.inj (List.cons.inj ht).2).1

/-- The metadata line is found by its `"> Shared from "` prefix: it is the
first line of the document carrying it. -/
theorem metaLineOf_doc (p : Plan) : metaLineOf (docLines p) = some (metaLn p) := by
  rw [metaLineOf, docLines]
  simp only [List.cons_append, List.nil_append, List.append_assoc]
  rw [List.find?_cons_of_neg _ (by decide),
    List.find?_cons_of_neg _ (by
      show ¬ List.isPrefixOf ('>' :: str " Shared from ") ('#' :: (str " Plan: " ++ p.title)) = true
      rw [isPrefixOf_cons_cons_false '>' '#' (by decide)]
      decide),
    List.find?_cons_of_neg _ (by decide),
    List.find?_cons_of_pos _ (by
      rw [metaLn, List.isPrefixOf_iff_prefix]
      exact ⟨p.metadata.source ++ str " | Updated: " ++ p.metadata.updatedAt,
        by simp [List.append_assoc]⟩)]

/-- The title line is found by its `"# Plan: "` prefix, stripped of it and
trimmed; a well-formed title is returned unchanged. -/
theorem extractTitle_doc (p : Plan) (h : wfPlan p = true) :
    extractTitle (docLines p) = p.title := by
  rw [extractTitle, docLines]
  simp only [List.cons_append, List.nil_append, List.append_assoc]
  rw [List.find?_cons_of_neg _ (by decide),
    List.find?_cons_of_pos _ (by
      rw [List.isPrefixOf_iff_prefix]
      exact ⟨p.title, rfl⟩)]
  show trimStr (replaceFirst (str "# Plan: " ++ p.title) (str "# Plan: ") []) = p.title
  rw [replaceFirst.eq_def,
    if_pos (by rw [List.isPrefixOf_iff_prefix]; exact ⟨p.title, rfl⟩)]
  rw [List.nil_append, List.drop_left]
  exact (wfPlan_unpack h).2.1

/-- Joining the newline-split parts back with newlines is the identity. -/
theorem join_split (c : Char) : ∀ d : Str, joinWith c (splitOnChar c d) = d
  | [] => rfl
  | x :: xs => by
    rw [splitOnChar]
    by_cases hx : x = c
    · rw [if_pos hx]
      cases hs : splitOnChar c xs with
      | nil => exact absurd hs (splitOnChar_ne_nil c xs)
      | cons l ls =>
        rw [joinWith]
        have := join_split c xs
        rw [hs] at this
        rw [this, hx, List.nil_append]
    · rw [if_neg hx]
      cases hs : splitOnChar c xs with
      | nil => exact absurd hs (splitOnChar_ne_nil c xs)
      | cons l ls =>
        have := join_split c xs
        rw [hs] at this
        cases ls with
        | nil =>
          rw [joinWith] at this ⊢
          rw [this]
        | cons l2 ls2 =>
          rw [joinWith] at this ⊢
          rw [List.cons_append, this]

theorem wfDescLine_unpack {l : Str} (h : wfDescLine l = true) :
    trimStr l ≠ [] ∧ trimStr l ≠ str "## Overview" ∧
    (str "## Tasks").isPrefixOf l = false ∧ matchItemLine l = none := by
  rw [wfDescLine] at h
  simp only [Bool.and_eq_true, Bool.not_eq_true'] at h
  obtain ⟨⟨⟨h1, h2⟩, h3⟩, h4⟩ := h
  refine ⟨by simpa using h1, by simpa using h2, h3, ?_⟩
  rwa [Option.isNone_iff_eq_none] at h4

theorem wfDescription_some {d : Str} (h : wfDescription (some d) = true)
    (hne : d ≠ []) :
    trimStr d = d ∧ ∀ l ∈ splitOnChar '\n' d, wfDescLine l = true := by
  rw [wfDescription] at h
  rcases Bool.or_eq_true_iff.1 h with h2 | h2
  · exact absurd (by simpa using h2) hne
  · rw [Bool.and_eq_true] at h2
    exact ⟨by simpa using h2.1, by simpa [List.all_eq_true] using h2.2⟩

end CochatPlan

namespace CochatPlan

theorem descLinesOf_none (p : Plan) (hd : p.description = none) : descLinesOf p = [] := by
  rw [descLinesOf, hd]

theorem descLinesOf_some_nil (p : Plan) (hd : p.description = some []) :
    descLinesOf p = [] := by
  rw [descLinesOf, hd]
  rfl

theorem descLinesOf_some (p : Plan) (d : Str) (hd : p.description = some d) (hne : d ≠ []) :
    descLinesOf p = [str "## Overview", []] ++ splitOnChar '\n' d ++ [[]] := by
  rw [descLinesOf, hd]
  show (if d = [] then [] else [str "## Overview", []] ++ splitOnChar '\n' d ++ [[]]) = _
  rw [if_neg hne]

/-- The metadata line sits at index 3 of the document: it differs from the
marker, the title line, and the blank line before it. -/
theorem metaIdx_doc (p : Plan) : metaIdxOf (docLines p) (some (metaLn p)) = 3 := by
  rw [metaIdxOf, Option.getD_some, jsIndexOf, docLines]
  simp only [List.cons_append, List.nil_append, List.append_assoc]
  rw [List.findIdx?_cons,
    if_neg (by
      simp only [decide_eq_true_eq]
      exact ne_of_head (show (some '<' : Option Char) ≠ some '>' by decide)),
    List.findIdx?_cons,
    if_neg (by
      simp only [decide_eq_true_eq]
      exact ne_of_head (show (some '#' : Option Char) ≠ some '>' by decide)),
    List.findIdx?_cons,
    if_neg (by
      simp only [decide_eq_true_eq]
      exact ne_of_head (show (none : Option Char) ≠ some '>' by decide)),
    List.findIdx?_cons, if_pos (by simp)]
  rfl

theorem findIdx?_append_none (pr : Str → Bool) :
    ∀ (l1 : List Str), (∀ x ∈ l1, pr x = false) →
    ∀ (l2 : List Str) (i : Nat),
      (l1 ++ l2).findIdx? pr i = l2.findIdx? pr (i + l1.length)
  | [], _, l2, i => by simp
  | a :: t, h, l2, i => by
    rw [List.cons_append, List.findIdx?_cons, if_neg (by rw [h a (by simp)]; simp),
      findIdx?_append_none pr t (fun x hx => h x (by simp [hx])) l2 (i + 1)]
    congr 1
    simp
    omega

/-- The `## Tasks` heading is the first line of the document starting with
it: no earlier fixed line does, and well-formed description lines are
excluded by construction. -/
theorem tasksIdx_doc (p : Plan) (h : wfPlan p = true) :
    tasksIdxOf (docLines p) = 5 + ((descLinesOf p).length : Int) := by
  obtain ⟨_, _, _, _, hdesc, _⟩ := wfPlan_unpack h
  rw [tasksIdxOf, jsFindIndex, docLines]
  simp only [List.cons_append, List.nil_append, List.append_assoc]
  rw [List.findIdx?_cons, if_neg (by decide),
    List.findIdx?_cons,
    if_neg (by
      show ¬ List.isPrefixOf ('#' :: '#' :: str " Tasks") ('#' :: ' ' :: (str "Plan: " ++ p.title)) = true
      rw [isPrefixOf_cons2_false _ _ _ (by decide)]
      decide),
    List.findIdx?_cons, if_neg (by decide),
    List.findIdx?_cons,
    if_neg (by
      show ¬ List.isPrefixOf ('#' :: '#' :: str " Tasks")
        ('>' :: (str " Shared from " ++ p.metadata.source ++ str " | Updated: " ++
          p.metadata.updatedAt)) = true
      rw [isPrefixOf_cons_cons_false '#' '>' (by decide)]
      decide),
    List.findIdx?_cons, if_neg (by decide)]
  rcases hdd : p.description with _ | d
  · rw [descLinesOf_none p hdd]
    rw [List.nil_append, List.findIdx?_cons, if_pos (by decide)]
    rfl
  · by_cases hde : d = []
    · subst hde
      rw [descLinesOf_some_nil p hdd]
      rw [List.nil_append, List.findIdx?_cons, if_pos (by decide)]
      rfl
    · rw [descLinesOf_some p d hdd hde]
      have hlines := (wfDescription_some (hdd ▸ hdesc) hde).2
      simp only [List.cons_append, List.nil_append, List.append_assoc]
      rw [List.findIdx?_cons, if_neg (by decide),
        List.findIdx?_cons, if_neg (by decide),
        findIdx?_append_none _ _ (fun x hx => (wfDescLine_unpack (hlines x hx)).2.2.1) _ 7,
        List.findIdx?_cons, if_neg (by decide),
        List.findIdx?_cons, if_pos (by decide)]
    
      simp
      omega

end CochatPlan


namespace CochatPlan

theorem descSpan_doc_none (p : Plan) (h : wfPlan p = true) (hd0 : descLinesOf p = []) :
    descSpan (docLines p) (some (metaLn p)) = [] := by
  rw [descSpan, metaIdx_doc, tasksIdx_doc p h, hd0, docLines, hd0]
  have h1 : (((3 : ℤ) + 1).toNat) = 4 := by omega
  have h2 : ((5 + (([] : List Str).length : ℤ) - 3 - 1).toNat) = 1 := by simp
  rw [h1, h2]
  simp only [List.cons_append, List.nil_append, List.append_assoc]
  rw [show (4 : ℕ) = 3 + 1 from rfl, List.drop_succ_cons, List.drop_succ_cons,
    List.drop_succ_cons, List.drop_succ_cons, List.drop_zero,
    show (1 : ℕ) = 0 + 1 from rfl, List.take_succ_cons, List.take_zero]
  rw [List.filter_cons_of_neg (by decide), List.filter_nil]

theorem descSpan_doc_some (p : Plan) (d : Str) (h : wfPlan p = true)
    (hdd : p.description = some d) (hde : d ≠ []) :
    descSpan (docLines p) (some (metaLn p)) = splitOnChar '\n' d := by
  have hdl := descLinesOf_some p d hdd hde
  have hlines := (wfDescription_some (hdd ▸ (wfPlan_unpack h).2.2.2.2.1) hde).2
  rw [descSpan, metaIdx_doc, tasksIdx_doc p h, hdl, docLines, hdl]
  have h1 : (((3 : ℤ) + 1).toNat) = 4 := by omega
  have h2 : ((5 + ((([str "## Overview", []] ++ splitOnChar '\n' d ++ [[]] : List Str)).length : ℤ)
      - 3 - 1).toNat) = (splitOnChar '\n' d).length + 1 + 1 + 1 + 1 := by
    simp
    omega
  rw [h1, h2]
  simp only [List.cons_append, List.nil_append, List.append_assoc]
  rw [show (4 : ℕ) = 3 + 1 from rfl, List.drop_succ_cons, List.drop_succ_cons,
    List.drop_succ_cons, List.drop_succ_cons, List.drop_zero]
  rw [List.take_succ_cons, List.take_succ_cons, List.take_succ_cons]
  rw [show ((splitOnChar '\n' d).length + 1 : ℕ) =
    (splitOnChar '\n' d).length + (0 + 1) from rfl]
  rw [List.take_append (0 + 1), List.take_succ_cons, List.take_zero]
  rw [List.filter_cons_of_neg (by decide), List.filter_cons_of_neg (by decide),
    List.filter_cons_of_neg (by decide), List.filter_append,
    List.filter_cons_of_neg (by decide), List.filter_nil, List.append_nil]
  exact List.filter_eq_self.2 fun l hl =>
    decide_eq_true ⟨(wfDescLine_unpack (hlines l hl)).1, (wfDescLine_unpack (hlines l hl)).2.1⟩

/-- Description extraction on a well-formed document: a present non-empty
description is returned verbatim, an absent or empty one yields no
description field. -/
theorem extractDescription_doc (p : Plan) (h : wfPlan p = true) :
    extractDescription (docLines p) (some (metaLn p)) =
      (match p.description with
       | some d => if d = [] then none else some d
       | none => none) := by
  rw [extractDescription, metaIdx_doc, tasksIdx_doc p h,
    if_pos ⟨by norm_num, by omega⟩]
  rcases hdd : p.description with _ | d
  · rw [descSpan_doc_none p h (descLinesOf_none p hdd)]
    rw [if_neg (by simp)]
  · by_cases hde : d = []
    · subst hde
      rw [descSpan_doc_none p h (descLinesOf_some_nil p hdd)]
      rw [if_neg (by simp)]
      rfl
    · rw [descSpan_doc_some p d h hdd hde,
        if_pos (by
          have := splitOnChar_ne_nil '\n' d
          cases hs : splitOnChar '\n' d with
          | nil => exact absurd hs this
          | cons a l => simp),
        join_split, (wfDescription_some (hdd ▸ (wfPlan_unpack h).2.2.2.2.1) hde).1]
      show some d = if d = [] then none else some d
      rw [if_neg hde]

end CochatPlan

namespace CochatPlan

theorem collectItems_skip_all (f : Nat → Str) :
    ∀ (L : List Str), (∀ l ∈ L, matchItemLine l = none) →
    ∀ (rest : List Str) (n : Nat), collectItems f (L ++ rest) n = collectItems f rest n
  | [], _, rest, n => by rw [List.nil_append]
  | l :: L, h, rest, n => by
    rw [List.cons_append, collectItems_skip f _ _ n (h l (by simp)),
      collectItems_skip_all f L (fun x hx => h x (by simp [hx])) rest n]

mutual

/-- Scanning the serialized lines of one item (and everything after) yields
that item's flat parsed lines, relabelled with the fresh ids consumed in
document order, followed by the scan of the remaining lines. -/
theorem collectLinesItem : ∀ (it : PlanItem) (d : Nat) (f : Nat → Str) (n : Nat)
    (rest : List Str), wfItem it = true →
    collectItems f (linesOfItem it d ++ rest) n =
      flatItem (d : ℚ) (relabelItem f n it).1 ++ collectItems f rest (relabelItem f n it).2
  | .mk i c s0 pr ch, d, f, n, rest, h => by
    rw [wfItem, Bool.and_eq_true] at h
    have hc : (((d + 1 : ℕ)) : ℚ) = (d : ℚ) + 1 := by push_cast; ring
    rw [linesOfItem, List.cons_append, collectItems_itemLine f i c s0 pr ch d _ n h.1,
      collectLinesKids ch (d + 1) f (n + 1) rest h.2, hc, relabelItem]
    dsimp only
    rw [flatItem, List.cons_append]

theorem collectLinesKids : ∀ (ch : Option (List PlanItem)) (d : Nat) (f : Nat → Str)
    (n : Nat) (rest : List Str), wfKids ch = true →
    collectItems f (linesOfKids ch d ++ rest) n =
      flatKids (d : ℚ) (relabelKids f n ch).1 ++ collectItems f rest (relabelKids f n ch).2
  | none, d, f, n, rest, _ => by
    rw [linesOfKids, List.nil_append, relabelKids]
    dsimp only
    rw [flatKids, List.nil_append]
  | some cs, d, f, n, rest, h => by
    rw [wfKids] at h
    rw [linesOfKids, relabelKids]
    dsimp only
    rw [flatKids]
    exact collectLinesItems cs d f n rest h

theorem collectLinesItems : ∀ (cs : List PlanItem) (d : Nat) (f : Nat → Str)
    (n : Nat) (rest : List Str), wfItems cs = true →
    collectItems f (linesOfItems cs d ++ rest) n =
      flatItems (d : ℚ) (relabelItems f n cs).1 ++ collectItems f rest (relabelItems f n cs).2
  | [], d, f, n, rest, _ => by
    rw [linesOfItems, List.nil_append, relabelItems]
    dsimp only
    rw [flatItems, List.nil_append]
  | it :: its, d, f, n, rest, h => by
    rw [wfItems, Bool.and_eq_true] at h
    rw [linesOfItems, List.append_assoc, collectLinesItem it d f n _ h.1,
      collectLinesItems its d f (relabelItem f n it).2 rest h.2, relabelItems]
    dsimp only
    rw [flatItems, List.append_assoc]

end

end CochatPlan

namespace CochatPlan

theorem descLines_no_item (p : Plan) (h : wfPlan p = true) :
    ∀ l ∈ descLinesOf p, matchItemLine l = none := by
  intro l hl
  obtain ⟨_, _, _, _, hdesc, _⟩ := wfPlan_unpack h
  rcases hdd : p.description with _ | d
  · rw [descLinesOf_none p hdd] at hl
    exact absurd hl (by simp)
  · by_cases hde : d = []
    · subst hde
      rw [descLinesOf_some_nil p hdd] at hl
      exact absurd hl (by simp)
    · rw [descLinesOf_some p d hdd hde] at hl
      simp only [List.mem_append, List.mem_cons, List.not_mem_nil, or_false] at hl
      rcases hl with ((rfl | rfl) | h2) | rfl
      · rfl
      · rfl
      · exact (wfDescLine_unpack ((wfDescription_some (hdd ▸ hdesc) hde).2 l h2)).2.2.2
      · rfl

/-- Scanning the whole document collects exactly the flat parsed lines of
the (relabelled) item forest: no other document line matches the item
grammar. -/
theorem collectItems_doc (p : Plan) (f : Nat → Str) (h : wfPlan p = true) :
    collectItems f (docLines p) 0 = flatItems 0 (relabelItems f 0 p.items).1 := by
  obtain ⟨_, _, _, _, hdesc, hitems⟩ := wfPlan_unpack h
  rw [docLines]
  simp only [List.cons_append, List.nil_append, List.append_assoc]
  rw [collectItems_skip f PLAN_MARKER _ 0 rfl,
    collectItems_skip f (str "# Plan: " ++ p.title) _ 0 rfl,
    collectItems_skip f [] _ 0 rfl,
    collectItems_skip f (metaLn p) _ 0 rfl,
    collectItems_skip f [] _ 0 rfl,
    collectItems_skip_all f (descLinesOf p) (descLines_no_item p h) _ 0,
    collectItems_skip f (str "## Tasks") _ 0 rfl,
    collectItems_skip f [] _ 0 rfl,
    collectLinesItems p.items 0 f 0 _ hitems, Nat.cast_zero,
    collectItems_skip f [] _ _ rfl,
    collectItems_skip f (str "---") _ _ rfl,
    collectItems_skip f planFooter _ _ rfl,
    collectItems, List.append_nil]

end CochatPlan

namespace CochatPlan

/-- C1 (amended): round-trip identity on semantics for well-formed plans,
where `wfPlan` states exactly: the title contains no newline and equals its
own trim; `metadata.source` and `metadata.updatedAt` contain no newline;
the description, when present and non-empty, equals its own trim and each
of its newline-split lines is non-blank after trimming, does not trim to
`## Overview`, does not start with `## Tasks`, and does not match the item
grammar; and every item content, recursively, is non-empty, equals its own
trim, contains only characters the regex dot matches (no LF, CR, U+2028,
U+2029), and contains neither annotation token.  Each condition closes a
genuinely lossy path of the grammar (annotation tokens flip the status,
newlines in any serialized field change the document's line structure —
e.g. a newline in `source` splits the provenance line and its second half
is swallowed into the description span — untrimmed text is trimmed back by
the parser, and colliding description lines are filtered out or parsed as
items).  Under these conditions serializing and re-parsing yields a plan
with the same title, the same description (an absent and an empty
description both come back as no description field), and an item forest of
identical shape: position for position the same content, status, and
priority, with children depth and order preserved; moreover a plan with no
items round-trips to a plan with no items. -/
theorem roundTrip_wellFormed (p : Plan) (f : Nat → Str) (now : Str)
    (h : wfPlan p = true) :
    ∃ q, markdownToPlan f now (planToMarkdown p) = some q ∧
      q.title = p.title ∧
      q.description = (match p.description with
        | some d => if d = [] then none else some d
        | none => none) ∧
      sameShapeL q.items p.items = true ∧
      (p.items = [] → q.items = []) := by
  have hm : jsIncludes (planToMarkdown p) PLAN_MARKER = true :=
    (jsIncludes_iff _ _).2 (marker_starts_doc p).isInfix
  refine ⟨_, markdownToPlan_some f now _ hm, ?_, ?_, ?_, ?_⟩
  · rw [parsePlanLines]
    dsimp only
    rw [splitPlanToMarkdown p h, extractTitle_doc p h]
  · rw [parsePlanLines]
    dsimp only
    rw [splitPlanToMarkdown p h, metaLineOf_doc, extractDescription_doc p h]
  · rw [parsePlanLines]
    dsimp only
    rw [splitPlanToMarkdown p h, collectItems_doc p f h, buildTree_flatItems]
    exact shapeCRRL p.items f 0
  · intro hnil
    rw [parsePlanLines]
    dsimp only
    rw [splitPlanToMarkdown p h, collectItems_doc p f h, hnil, buildTree_flatItems]
    rfl

/-- A plan whose single pending item mentions the cancelled-annotation
token inside its content text. -/
def demoPlanC1 : Plan :=
  { title := str "R", description := none,
    items := [.mk [] (str "redo the ~~cancelled~~ step") .pending .medium none],
    metadata := { source := str "s", sessionId := none,
                  createdAt := [], updatedAt := str "U" } }

/-- The original C1 claim fails without a well-formedness restriction: a
pending item whose content contains the literal token `~~cancelled~~`
serializes fine, but re-parsing assigns it status `cancelled`, so status is
not preserved at the same tree position. -/
theorem roundTrip_counterexample :
    (markdownToPlan (fun _ => []) [] (planToMarkdown demoPlanC1)).map
        (fun q => q.items.map (fun it => it.status)) = some [PlanItemStatus.cancelled] ∧
    demoPlanC1.items.map (fun it => it.status) = [PlanItemStatus.pending] := by
  constructor
  · rfl
  · rfl

/-- A concrete well-formed plan with a nested child, a description, and all
four statuses exercised. -/
def demoPlanW : Plan :=
  { title := str "My plan", description := some (str "Why we do this"),
    items := [.mk (str "a") (str "Alpha") .completed .high
                (some [.mk (str "b") (str "Beta") .in_progress .low none]),
              .mk (str "c") (str "Gamma") .cancelled .medium none],
    metadata := { source := str "cli", sessionId := none,
                  createdAt := str "D", updatedAt := str "D2" } }

theorem roundTrip_wellFormed_witness :
    wfPlan demoPlanW = true ∧
    ∃ q, markdownToPlan (fun _ => str "i") (str "now") (planToMarkdown demoPlanW) = some q ∧
      q.title = demoPlanW.title ∧
      q.description = (match demoPlanW.description with
        | some d => if d = [] then none else some d
        | none => none) ∧
      sameShapeL q.items demoPlanW.items = true ∧
      (demoPlanW.items = [] → q.items = []) :=
  ⟨by rfl, roundTrip_wellFormed demoPlanW (fun _ => str "i") (str "now") (by rfl)⟩

end CochatPlan
